import Mathlib

/-!
Shallow embedding of the assembly front-end of smu-cs106-asm-visualiser:
the AT&T-syntax lexer (`tokenize`) and the MOV instruction validation
schema (`movValidator` from `src/parser/validators/instruction/mov.ts`)
together with the validator framework that runs it.

The lexer implementation file itself is not part of the source snapshot;
only its test suite is.  The lexer below is therefore modelled from the
specification (section 4.2 of the spec), with every behaviour that the
in-tree test suite pins down reproduced exactly (canonical token texts,
error kinds and quoted error messages).
-/

namespace MovViz

/-- Whitespace accepted inside a line: space or tab. -/
def isWS (c : Char) : Bool := c = ' ' || c = '\t'

/-- ASCII decimal digit. -/
def isDigitC (c : Char) : Bool := '0' ≤ c && c ≤ '9'

/-- ASCII lowercase letter. -/
def isLowerC (c : Char) : Bool := 'a' ≤ c && c ≤ 'z'

/-- ASCII uppercase letter. -/
def isUpperC (c : Char) : Bool := 'A' ≤ c && c ≤ 'Z'

/-- ASCII letter. -/
def isAlphaC (c : Char) : Bool := isLowerC c || isUpperC c

/-- ASCII letter or digit. -/
def isAlnumC (c : Char) : Bool := isAlphaC c || isDigitC c

/-- ASCII hexadecimal digit (either case). -/
def isHexC (c : Char) : Bool := isDigitC c || ('a' ≤ c && c ≤ 'f') || ('A' ≤ c && c ≤ 'F')

/-- Uppercase one ASCII character (identity outside `a`-`z`). -/
def upChar (c : Char) : Char := if isLowerC c then Char.ofNat (c.toNat - 32) else c

/-- Uppercase a character list. -/
def upStr (l : List Char) : List Char := l.map upChar

/-- Modelled from the spec: the instruction catalog (`SUPPORTED_INSTRUCTIONS`
from `instruction.ts`, absent from the snapshot).  The spec and the tests
name `MOV` and `ADD`. -/
def SUPPORTED_INSTRUCTIONS : List (List Char) := ["MOV".data, "ADD".data]

/-- Modelled from the spec: the variant catalog (`SUPPORTED_VARIANTS` from
`variant.ts`, absent from the snapshot): size suffixes `B`, `W`, `L`, `Q`
plus the special form `ABSQ`. -/
def SUPPORTED_VARIANTS : List (List Char) :=
  ["B".data, "W".data, "L".data, "Q".data, "ABSQ".data]

/-- Modelled from the spec: 64-bit register names. -/
def REGISTERS_64 : List (List Char) :=
  ["RAX".data, "RBX".data, "RCX".data, "RDX".data,
   "RSI".data, "RDI".data, "RBP".data, "RSP".data]

/-- Modelled from the spec: 32-bit register names. -/
def REGISTERS_32 : List (List Char) :=
  ["EAX".data, "EBX".data, "ECX".data, "EDX".data,
   "ESI".data, "EDI".data, "EBP".data, "ESP".data]

/-- Modelled from the spec: 16-bit register names. -/
def REGISTERS_16 : List (List Char) :=
  ["AX".data, "BX".data, "CX".data, "DX".data,
   "SI".data, "DI".data, "BP".data, "SP".data]

/-- Modelled from the spec: 8-bit register names. -/
def REGISTERS_8 : List (List Char) :=
  ["AL".data, "BL".data, "CL".data, "DL".data,
   "SIL".data, "DIL".data, "BPL".data, "SPL".data]

/-- Modelled from the spec: the register catalog (`SUPPORTED_REGISTERS` from
`register.ts`, absent from the snapshot), grouped by size class. -/
def SUPPORTED_REGISTERS : List (List Char) :=
  REGISTERS_64 ++ REGISTERS_32 ++ REGISTERS_16 ++ REGISTERS_8

/-- Size class (in bits) of a catalog register name. -/
def registerSize (r : List Char) : Option Nat :=
  if r ∈ REGISTERS_64 then some 64
  else if r ∈ REGISTERS_32 then some 32
  else if r ∈ REGISTERS_16 then some 16
  else if r ∈ REGISTERS_8 then some 8
  else none

/-- A scanned integer literal: sign, radix, the exact `x` character of a hex
prefix as written, and the digit characters. -/
structure NumLit where
  neg : Bool
  hex : Bool
  xChar : Char
  digits : List Char
deriving DecidableEq

/-- Value of one hexadecimal digit character (either case). -/
def hexDigitVal (c : Char) : Nat :=
  if isDigitC c then c.toNat - 48
  else if 'a' ≤ c && c ≤ 'f' then c.toNat - 87
  else c.toNat - 55

/-- Value of a decimal digit string. -/
def decVal (l : List Char) : Nat := l.foldl (fun a c => 10 * a + (c.toNat - 48)) 0

/-- Value of a hexadecimal digit string. -/
def hexVal (l : List Char) : Nat := l.foldl (fun a c => 16 * a + hexDigitVal c) 0

/-- Magnitude of a literal. -/
def NumLit.magnitude (n : NumLit) : Nat := if n.hex then hexVal n.digits else decVal n.digits

/-- Signed value of a literal. -/
def NumLit.value (n : NumLit) : Int :=
  if n.neg then -(n.magnitude : Int) else (n.magnitude : Int)

/-- Canonical form of a literal: digits uppercased, `0x`/`0X` prefix and sign
preserved as written (tests expect `0x123ABC` from input `0x123abc`). -/
def NumLit.canon (n : NumLit) : NumLit := { n with digits := upStr n.digits }

/-- Textual rendering of the unsigned part of a literal. -/
def NumLit.renderMag (n : NumLit) : List Char :=
  (if n.hex then ['0', n.xChar] else []) ++ n.digits

/-- Textual rendering of a literal. -/
def NumLit.render (n : NumLit) : List Char :=
  (if n.neg then ['-'] else []) ++ n.renderMag

/-- Scan an unsigned decimal literal. -/
def scanDec (neg : Bool) (l : List Char) : Option (NumLit × List Char) :=
  if l.takeWhile isDigitC = [] then none
  else some ({ neg := neg, hex := false, xChar := 'x', digits := l.takeWhile isDigitC },
             l.dropWhile isDigitC)

/-- Scan an unsigned literal: hexadecimal when a `0x`/`0X` prefix is present,
decimal otherwise. -/
def scanMag (neg : Bool) (l : List Char) : Option (NumLit × List Char) :=
  match l with
  | c0 :: x :: r =>
    if c0 = '0' ∧ (x = 'x' ∨ x = 'X') then
      if r.takeWhile isHexC = [] then none
      else some ({ neg := neg, hex := true, xChar := x, digits := r.takeWhile isHexC },
                 r.dropWhile isHexC)
    else scanDec neg (c0 :: x :: r)
  | _ => scanDec neg l

/-- Modelled from the spec: the numeric scanner (section 4.1).  Optional
leading `-`, then decimal digits or `0x` plus hexadecimal digits. -/
def scanNumber (l : List Char) : Option (NumLit × List Char) :=
  match l with
  | c :: r => if c = '-' then scanMag true r else scanMag false (c :: r)
  | [] => scanMag false []

/-- A token of the lexer, mirroring `TokenType` and the `Token` payloads of
`lexer.ts`.  Register names inside `mem` are stored without the `%` sigil,
as in the test expectations. -/
inductive Tok where
  | instr (token : List Char) (instruction : List Char) (variant : Option (List Char))
  | reg (token : List Char)
  | imm (token : List Char) (value : Int)
  | mem (token : List Char) (displacement : Option Int)
        (base : Option (List Char)) (index : Option (List Char)) (scale : Option Int)
  | comma
deriving DecidableEq

/-- Lexer error kinds, mirroring the error table of the spec (section 7). -/
inductive LexErr where
  | unsupportedInstruction (s : List Char)
  | expectedWhitespaceAfterInstruction
  | expectedNewlineBeforeSubsequentInstruction
  | unexpectedRegister (s : List Char)
  | invalidBaseRegister (s : List Char)
  | invalidIndexRegister (s : List Char)
  | invalidAddressing (s : List Char)
  | missingClosingParenthesis
  | missingOpeningParenthesis
  | emptyImmediate
  | invalidNumber (s : List Char)
  | unexpectedCharacter (c : Char)
  | fuelExhausted
deriving DecidableEq

/-- Prefix text plus the offending token text in double quotes. -/
def quoteErr (pre : String) (s : List Char) : List Char := pre.data ++ '"' :: s ++ ['"']

/-- Human-readable message of a lexer error; texts as asserted by the
in-tree test suite. -/
def LexErr.message : LexErr → List Char
  | .unsupportedInstruction s => quoteErr "Unsupported instruction: " s
  | .expectedWhitespaceAfterInstruction => "Expected whitespace after instruction".data
  | .expectedNewlineBeforeSubsequentInstruction =>
      "Expected newline before subsequent instruction".data
  | .unexpectedRegister s => quoteErr "Unexpected register: " s
  | .invalidBaseRegister s => quoteErr "Invalid base register: " s
  | .invalidIndexRegister s => quoteErr "Invalid index register: " s
  | .invalidAddressing s => quoteErr "Invalid addressing: " s
  | .missingClosingParenthesis => "Missing \")\" in memory addressing".data
  | .missingOpeningParenthesis => "Missing \"(\" in memory addressing".data
  | .emptyImmediate => "Empty immediate".data
  | .invalidNumber s => quoteErr "Invalid number: " s
  | .unexpectedCharacter c => quoteErr "Unexpected character: " [c]
  | .fuelExhausted => "Out of fuel".data

/-- Strip leading and trailing whitespace from a field. -/
def trimWS (l : List Char) : List Char :=
  ((l.dropWhile isWS).reverse.dropWhile isWS).reverse

/-- Recognize a `%NAME` field with a catalog register, returning the bare
name. -/
def regField (f : List Char) : Option (List Char) :=
  match f with
  | c :: name => if c = '%' ∧ name ∈ SUPPORTED_REGISTERS then some name else none
  | [] => none

/-- The text between the parentheses of a canonical memory operand:
tightly packed, commas between present fields. -/
def memFieldsText (b : Option (List Char)) (i : Option (List Char))
    (sl : Option NumLit) : List Char :=
  (match b with | some bb => '%' :: bb | none => []) ++
  (match i with | some ii => ',' :: '%' :: ii | none => []) ++
  (match sl with | some n => ',' :: n.render | none => [])

/-- Canonical text of a parenthesized memory operand, rebuilt from its
parsed fields. -/
def memToken (dl : Option NumLit) (b : Option (List Char)) (i : Option (List Char))
    (sl : Option NumLit) : List Char :=
  (match dl with | some n => n.render | none => []) ++
  '(' :: (memFieldsText b i sl ++ [')'])

/-- Split a field list on commas; always returns at least one field and one
more field than there are commas. -/
def splitComma : List Char → List (List Char)
  | [] => [[]]
  | c :: r =>
    if c = ',' then [] :: splitComma r
    else
      match splitComma r with
      | [] => [[c]]
      | f :: fs => (c :: f) :: fs

/-- Position-0 field of a 3-field operand: may be empty (no base), otherwise
must be a register. -/
def baseField3 (b : List Char) : Except LexErr (Option (List Char)) :=
  if b = [] then .ok none
  else
    match regField b with
    | some bb => .ok (some bb)
    | none => .error (.invalidBaseRegister b)

/-- Modelled from the spec: assignment of the comma-separated fields of a
parenthesized memory operand (section 4.2, shape 8).  `content` is the raw
text between the parentheses; fields are trimmed and uppercased, and the
`InvalidAddressing` message embeds the whole uppercased parenthesized
text. -/
def parseMemFields (dl : Option NumLit) (content : List Char) : Except LexErr Tok :=
  match (splitComma content).map (fun f => upStr (trimWS f)) with
  | [b] =>
    match regField b with
    | some bb =>
      .ok (.mem (memToken dl (some bb) none none) (dl.map NumLit.value) (some bb) none none)
    | none => .error (.invalidBaseRegister b)
  | [b, i] =>
    match regField b with
    | some bb =>
      match regField i with
      | some ii =>
        .ok (.mem (memToken dl (some bb) (some ii) none) (dl.map NumLit.value)
              (some bb) (some ii) none)
      | none => .error (.invalidIndexRegister i)
    | none => .error (.invalidBaseRegister b)
  | [b, i, s] =>
    match baseField3 b with
    | .error e => .error e
    | .ok ob =>
      match regField i with
      | none => .error (.invalidIndexRegister i)
      | some ii =>
        match scanNumber s with
        | some (n, []) =>
          .ok (.mem (memToken dl ob (some ii) (some n.canon)) (dl.map NumLit.value)
                ob (some ii) (some n.canon.value))
        | _ => .error (.invalidNumber s)
  | _ => .error (.invalidAddressing ('(' :: upStr content ++ [')']))

/-- A character that may appear inside a parenthesized memory operand. -/
def notParenEnd (c : Char) : Bool := !(c = ')' || c = '\n')

/-- Scan a parenthesized memory operand; `l` starts just after the `(`.
Newline or end of input before `)` is a missing closing parenthesis. -/
def memParen (dl : Option NumLit) (l : List Char) : Except LexErr (Tok × List Char) :=
  match l.dropWhile notParenEnd with
  | c :: r =>
    if c = ')' then
      match parseMemFields dl (l.takeWhile notParenEnd) with
      | .ok t => .ok (t, r)
      | .error e => .error e
    else .error .missingClosingParenthesis
  | [] => .error .missingClosingParenthesis

/-- Split an uppercased alphabetic run against one catalog mnemonic: either
the bare mnemonic, or the mnemonic followed by a supported variant. -/
def splitVariant (up : List Char) (b : List Char) : Option (List Char × Option (List Char)) :=
  if up = b then some (b, none)
  else if b.isPrefixOf up && (up.drop b.length) ∈ SUPPORTED_VARIANTS then
    some (b, some (up.drop b.length))
  else none

/-- Modelled from the spec: mnemonic recognition (section 4.2, class 5):
split a run into base mnemonic plus optional variant suffix. -/
def splitMnemonic (up : List Char) : Option (List Char × Option (List Char)) :=
  SUPPORTED_INSTRUCTIONS.findSome? (splitVariant up)

/-- Modelled from the spec: the lexer's scanning loop (section 4.2).  `seen`
records whether an instruction has already been lexed on the current line;
fuel decreases once per iteration and `tokenize` supplies enough for any
input. -/
def lexLoop : Nat → Bool → List Char → List Tok → Except LexErr (List Tok)
  | 0, _, _, _ => .error .fuelExhausted
  | _ + 1, _, [], acc => .ok acc
  | n + 1, seen, c :: cs, acc =>
    if isWS c then lexLoop n seen cs acc
    else if c = '\n' then lexLoop n false cs acc
    else if c = '#' then lexLoop n seen (cs.dropWhile (fun d => !(d = '\n'))) acc
    else if c = ',' then lexLoop n seen cs (acc ++ [.comma])
    else if c = '%' then
      if upStr (cs.takeWhile isAlnumC) ∈ SUPPORTED_REGISTERS then
        lexLoop n seen (cs.dropWhile isAlnumC) (acc ++ [.reg ('%' :: upStr (cs.takeWhile isAlnumC))])
      else .error (.unexpectedRegister (upStr (cs.takeWhile isAlnumC)))
    else if c = '$' then
      match scanNumber cs with
      | none => .error .emptyImmediate
      | some (lit, rest) =>
        lexLoop n seen rest (acc ++ [.imm ('$' :: lit.canon.render) lit.canon.value])
    else if isAlphaC c then
      if seen then .error .expectedNewlineBeforeSubsequentInstruction
      else
        match splitMnemonic (upStr ((c :: cs).takeWhile isAlphaC)) with
        | none => .error (.unsupportedInstruction (upStr ((c :: cs).takeWhile isAlphaC)))
        | some (base, variant) =>
          match (c :: cs).dropWhile isAlphaC with
          | [] =>
            lexLoop n true []
              (acc ++ [.instr (upStr ((c :: cs).takeWhile isAlphaC)) base variant])
          | d :: rest =>
            if isWS d || d = '\n' then
              lexLoop n true (d :: rest)
                (acc ++ [.instr (upStr ((c :: cs).takeWhile isAlphaC)) base variant])
            else .error .expectedWhitespaceAfterInstruction
    else if c = '(' then
      match memParen none cs with
      | .error e => .error e
      | .ok (t, rest) => lexLoop n seen rest (acc ++ [t])
    else if isDigitC c || c = '-' then
      match scanNumber (c :: cs) with
      | none => .error (.invalidNumber [upChar c])
      | some (lit, rest) =>
        match rest with
        | [] =>
          lexLoop n seen []
            (acc ++ [.mem lit.canon.render (some lit.canon.value) none none none])
        | d :: rest2 =>
          if d = '(' then
            match memParen (some lit.canon) rest2 with
            | .error e => .error e
            | .ok (t, r3) => lexLoop n seen r3 (acc ++ [t])
          else if isWS d || d = '\n' || d = ',' || d = '#' then
            lexLoop n seen (d :: rest2)
              (acc ++ [.mem lit.canon.render (some lit.canon.value) none none none])
          else .error .missingOpeningParenthesis
    else if c = ')' then .error .missingOpeningParenthesis
    else .error (.unexpectedCharacter c)

/-- Tokenize a character list; fuel is one more than the input length, which
is always sufficient since every loop iteration consumes a character. -/
def tokenizeL (l : List Char) : Except LexErr (List Tok) :=
  lexLoop (l.length + 1) false l []

/-- Modelled from the spec: `Lexer.tokenize` of `lexer.ts` (absent from the
snapshot; behaviour pinned by its in-tree test suite). -/
def tokenize (s : String) : Except LexErr (List Tok) := tokenizeL s.data

/-- Validator error kinds; each library validator reports its own kind. -/
inductive ValErr where
  | unknownInstruction
  | unsupportedVariant
  | wrongOperandCount
  | absqOperands
  | movExtensionOperands
  | memoryToMemory
  | invalidMemoryOperand
  | variantSizeMismatch
deriving DecidableEq

/-- Whether a token is a MEMORY operand. -/
def Tok.isMemory : Tok → Bool
  | .mem .. => true
  | _ => false

/-- Size class of a REGISTER token text of the form `%NAME`. -/
def regTokenSize (tok : List Char) : Option Nat :=
  match tok with
  | '%' :: name => registerSize name
  | _ => none

/-- Modelled from the spec: `absq_operands.ts` (absent from the snapshot).
When the variant is `ABSQ`, the operands must be exactly an immediate
followed by a 64-bit register. -/
def absqOperandsValidator (itok : Tok) (ops : List Tok) : Except ValErr Unit :=
  match itok with
  | .instr _ _ (some v) =>
    if v = "ABSQ".data then
      match ops with
      | [.imm _ _, .reg r] =>
        if regTokenSize r = some 64 then .ok () else .error .absqOperands
      | _ => .error .absqOperands
    else .ok ()
  | _ => .ok ()

/-- Whether a variant suffix denotes a zero/sign-extending move.  None of
the supported variants (`B`, `W`, `L`, `Q`, `ABSQ`) does. -/
def isExtensionVariant (v : List Char) : Bool :=
  match v with
  | 'Z' :: _ => true
  | 'S' :: _ => true
  | _ => false

/-- Modelled from the spec: `mov_extension_operands.ts` (absent from the
snapshot).  For zero/sign-extending variants the destination register's
size class must strictly exceed the source's. -/
def movExtensionOperandsValidator (itok : Tok) (ops : List Tok) : Except ValErr Unit :=
  match itok with
  | .instr _ _ (some v) =>
    if isExtensionVariant v then
      match ops with
      | [.reg src, .reg dst] =>
        match regTokenSize src, regTokenSize dst with
        | some a, some b => if a < b then .ok () else .error .movExtensionOperands
        | _, _ => .error .movExtensionOperands
      | _ => .error .movExtensionOperands
    else .ok ()
  | _ => .ok ()

/-- Modelled from the spec: `no_memory_to_memory_operands.ts` (absent from
the snapshot).  If two operands are both MEMORY, fail. -/
def noMemoryToMemoryValidator (_itok : Tok) (ops : List Tok) : Except ValErr Unit :=
  if 2 ≤ (ops.filter Tok.isMemory).length then .error .memoryToMemory else .ok ()

/-- Displacement range check: signed 32-bit, widened to signed 64-bit for
the `ABSQ` variant. -/
def dispInRange (absq : Bool) (d : Int) : Bool :=
  if absq then -(2 ^ 63) ≤ d && d < 2 ^ 63 else -(2 ^ 31) ≤ d && d < 2 ^ 31

/-- Field conditions of one MEMORY operand. -/
def memFieldsOk (absq : Bool) : Tok → Bool
  | .mem _ d _ i sc =>
    (match sc with
     | some s => (s = 1 || s = 2 || s = 4 || s = 8) && i.isSome
     | none => true) &&
    (match d with
     | some dv => dispInRange absq dv
     | none => true)
  | _ => true

/-- Modelled from the spec: `valid_memory_operands.ts` (absent from the
snapshot). -/
def validMemoryOperandsValidator (itok : Tok) (ops : List Tok) : Except ValErr Unit :=
  let absq := match itok with
    | .instr _ _ (some v) => v = "ABSQ".data
    | _ => false
  if ops.all (memFieldsOk absq) then .ok () else .error .invalidMemoryOperand

/-- Bit width denoted by a size-suffix variant. -/
def variantWidth (v : List Char) : Option Nat :=
  if v = "B".data then some 8
  else if v = "W".data then some 16
  else if v = "L".data then some 32
  else if v = "Q".data then some 64
  else none

/-- Size class of a REGISTER operand token. -/
def tokRegSize : Tok → Option Nat
  | .reg r => regTokenSize r
  | _ => none

/-- Modelled from the spec: `variant_size_operands.ts` (absent from the
snapshot).  A size-suffix variant forces every register operand to that
width; otherwise all register operands must agree on a size class. -/
def variantRegisterOperandSizeValidator (itok : Tok) (ops : List Tok) : Except ValErr Unit :=
  match itok with
  | .instr _ _ var =>
    match var.bind variantWidth with
    | some w =>
      if (ops.filterMap tokRegSize).all (· = w) then .ok () else .error .variantSizeMismatch
    | none =>
      match ops.filterMap tokRegSize with
      | [] => .ok ()
      | s :: rest => if rest.all (· = s) then .ok () else .error .variantSizeMismatch
  | _ => .ok ()

/-- Operand part of a validation schema, as in `validator.ts`. -/
structure OperandSchema where
  counts : List Nat
  validators : List (Tok → List Tok → Except ValErr Unit)

/-- `InstructionValidationSchema` of `validator.ts`. -/
structure InstructionValidationSchema where
  instruction : List Char
  supportedVariants : List (List Char)
  operand : OperandSchema
  validators : List (Tok → List Tok → Except ValErr Unit)

/-- The MOV validation schema, transcribed from
`src/parser/validators/instruction/mov.ts`: operand counts `[2]` and the
five operand validators in their declared order. -/
def movValidator : InstructionValidationSchema :=
  { instruction := "MOV".data
    supportedVariants := SUPPORTED_VARIANTS
    operand :=
      { counts := [2]
        validators :=
          [absqOperandsValidator, movExtensionOperandsValidator,
           noMemoryToMemoryValidator, validMemoryOperandsValidator,
           variantRegisterOperandSizeValidator] }
    validators := [] }

/-- Run validators in declared order, stopping at the first failure. -/
def runValidators (vs : List (Tok → List Tok → Except ValErr Unit)) (itok : Tok)
    (ops : List Tok) : Except ValErr Unit :=
  match vs with
  | [] => .ok ()
  | v :: rest =>
    match v itok ops with
    | .ok _ => runValidators rest itok ops
    | .error e => .error e

/-- Count check followed by the operand-level and instruction-level
validator lists. -/
def validateCounts (schema : InstructionValidationSchema) (itok : Tok) (ops : List Tok) :
    Except ValErr Unit :=
  if ops.length ∈ schema.operand.counts then
    match runValidators schema.operand.validators itok ops with
    | .ok _ => runValidators schema.validators itok ops
    | .error e => .error e
  else .error .wrongOperandCount

/-- Modelled from the spec: the validator framework (section 4.3): schema
lookup, variant check, operand count check, then the validator lists. -/
def validate (schema : InstructionValidationSchema) (itok : Tok) (ops : List Tok) :
    Except ValErr Unit :=
  match itok with
  | .instr _ ins var =>
    if ins = schema.instruction then
      match var with
      | some v =>
        if v ∈ schema.supportedVariants then validateCounts schema itok ops
        else .error .unsupportedVariant
      | none => validateCounts schema itok ops
    else .error .unknownInstruction
  | _ => .error .unknownInstruction

deriving instance DecidableEq for Except

/-- Canonical (uppercase) hexadecimal digit. -/
def isUpHexC (c : Char) : Bool := isDigitC c || ('A' ≤ c && c ≤ 'F')

/-- Well-formedness of a literal exactly as the lexer stores it: nonempty
digits, digits canonical (uppercased), hex prefix character as scanned. -/
def LitWf (l : NumLit) : Prop :=
  l.digits ≠ [] ∧
  (l.hex = true → (l.xChar = 'x' ∨ l.xChar = 'X') ∧ ∀ c ∈ l.digits, isUpHexC c = true) ∧
  (l.hex = false → l.xChar = 'x' ∧ ∀ c ∈ l.digits, isDigitC c = true)

/-- What the numeric scanner guarantees about a literal it returns: nonempty
digits of the scanned radix, and the hex prefix character as written. -/
def ScannedLit (n : NumLit) : Prop :=
  n.digits ≠ [] ∧
  (n.hex = true → (n.xChar = 'x' ∨ n.xChar = 'X') ∧ ∀ c ∈ n.digits, isHexC c = true) ∧
  (n.hex = false → n.xChar = 'x' ∧ ∀ c ∈ n.digits, isDigitC c = true)

/-- The permitted field combinations of a parenthesized memory operand:
`(base)`, `(base,index)`, or `(base?,index,scale)`. -/
def MemShape (b i : Option (List Char)) (sl : Option NumLit) : Prop :=
  (b.isSome = true ∧ i = none ∧ sl = none) ∨
  (b.isSome = true ∧ i.isSome = true ∧ sl = none) ∨
  (i.isSome = true ∧ sl.isSome = true)

/-- Well-formedness of an emitted token: payloads canonical and consistent
with the token text. -/
def TokWf : Tok → Prop
  | .instr tok base variant =>
    base ∈ SUPPORTED_INSTRUCTIONS ∧
    ((variant = none ∧ tok = base) ∨
     (∃ v, variant = some v ∧ v ∈ SUPPORTED_VARIANTS ∧ tok = base ++ v))
  | .reg tok => ∃ name, name ∈ SUPPORTED_REGISTERS ∧ tok = '%' :: name
  | .imm tok v => ∃ l, LitWf l ∧ tok = '$' :: l.render ∧ v = l.value
  | .mem tok d b i sc =>
    ∃ (dl sl : Option NumLit),
      (∀ x ∈ dl, LitWf x) ∧ (∀ x ∈ sl, LitWf x ∧ (x.hex = true → x.xChar = 'X')) ∧
      d = dl.map NumLit.value ∧ sc = sl.map NumLit.value ∧
      (∀ x ∈ b, x ∈ SUPPORTED_REGISTERS) ∧ (∀ x ∈ i, x ∈ SUPPORTED_REGISTERS) ∧
      ((∃ l, dl = some l ∧ b = none ∧ i = none ∧ sl = none ∧ tok = l.render) ∨
       (MemShape b i sl ∧ tok = memToken dl b i sl))
  | .comma => True

/-- The canonical text of a token. -/
def tokText : Tok → List Char
  | .instr tok _ _ => tok
  | .reg tok => tok
  | .imm tok _ => tok
  | .mem tok _ _ _ _ => tok
  | .comma => [',']

/-- Separator placed before a token when reconstructing source text: a
newline before each instruction, a space before anything else. -/
def sepChar : Tok → Char
  | .instr _ _ _ => '\n'
  | _ => ' '

/-- Source text reconstructed from the canonical token texts. -/
def render : List Tok → List Char
  | [] => []
  | t :: ts => sepChar t :: (tokText t ++ render ts)

/-- The lexer's seen-instruction-on-this-line state after consuming the
rendered tokens: each instruction token (rendered on a fresh line) sets it,
other tokens keep it. -/
def seenAfter (seen : Bool) : List Tok → Bool
  | [] => seen
  | .instr _ _ _ :: ts => seenAfter true ts
  | .reg _ :: ts => seenAfter seen ts
  | .imm _ _ :: ts => seenAfter seen ts
  | .mem _ _ _ _ _ :: ts => seenAfter seen ts
  | .comma :: ts => seenAfter seen ts

/- ### Character toolkit -/

theorem char_eq_of_toNat {c d : Char} (h : c.toNat = d.toNat) : c = d :=
  Char.ext (UInt32.toNat.inj h)

theorem isDigitC_toNat {c : Char} (h : isDigitC c = true) :
    48 ≤ c.toNat ∧ c.toNat ≤ 57 := by
  simp only [isDigitC, Bool.and_eq_true, decide_eq_true_eq] at h
  exact ⟨h.1, h.2⟩

theorem isDigitC_of_toNat {c : Char} (h1 : 48 ≤ c.toNat) (h2 : c.toNat ≤ 57) :
    isDigitC c = true := by
  simp only [isDigitC, Bool.and_eq_true, decide_eq_true_eq]
  exact ⟨h1, h2⟩

theorem isLowerC_toNat {c : Char} (h : isLowerC c = true) :
    97 ≤ c.toNat ∧ c.toNat ≤ 122 := by
  simp only [isLowerC, Bool.and_eq_true, decide_eq_true_eq] at h
  exact ⟨h.1, h.2⟩

theorem isUpperC_toNat {c : Char} (h : isUpperC c = true) :
    65 ≤ c.toNat ∧ c.toNat ≤ 90 := by
  simp only [isUpperC, Bool.and_eq_true, decide_eq_true_eq] at h
  exact ⟨h.1, h.2⟩

theorem isHexC_toNat {c : Char} (h : isHexC c = true) :
    (48 ≤ c.toNat ∧ c.toNat ≤ 57) ∨ (97 ≤ c.toNat ∧ c.toNat ≤ 102) ∨
    (65 ≤ c.toNat ∧ c.toNat ≤ 70) := by
  simp only [isHexC, isDigitC, Bool.or_eq_true, Bool.and_eq_true, decide_eq_true_eq] at h
  rcases h with (⟨a, b⟩ | ⟨a, b⟩) | ⟨a, b⟩
  · exact Or.inl ⟨a, b⟩
  · exact Or.inr (Or.inl ⟨a, b⟩)
  · exact Or.inr (Or.inr ⟨a, b⟩)

theorem isUpHexC_toNat {c : Char} (h : isUpHexC c = true) :
    (48 ≤ c.toNat ∧ c.toNat ≤ 57) ∨ (65 ≤ c.toNat ∧ c.toNat ≤ 70) := by
  simp only [isUpHexC, isDigitC, Bool.or_eq_true, Bool.and_eq_true, decide_eq_true_eq] at h
  rcases h with ⟨a, b⟩ | ⟨a, b⟩
  · exact Or.inl ⟨a, b⟩
  · exact Or.inr ⟨a, b⟩

theorem isAlphaC_toNat {c : Char} (h : isAlphaC c = true) :
    (97 ≤ c.toNat ∧ c.toNat ≤ 122) ∨ (65 ≤ c.toNat ∧ c.toNat ≤ 90) := by
  simp only [isAlphaC, Bool.or_eq_true] at h
  rcases h with h | h
  · exact Or.inl (isLowerC_toNat h)
  · exact Or.inr (isUpperC_toNat h)

theorem isAlnumC_toNat {c : Char} (h : isAlnumC c = true) :
    (97 ≤ c.toNat ∧ c.toNat ≤ 122) ∨ (65 ≤ c.toNat ∧ c.toNat ≤ 90) ∨
    (48 ≤ c.toNat ∧ c.toNat ≤ 57) := by
  simp only [isAlnumC, Bool.or_eq_true] at h
  rcases h with h | h
  · rcases isAlphaC_toNat h with a | a
    · exact Or.inl a
    · exact Or.inr (Or.inl a)
  · exact Or.inr (Or.inr (isDigitC_toNat h))

theorem isWS_false_of_toNat {c : Char} (h : 32 < c.toNat) : isWS c = false := by
  cases hw : isWS c with
  | false => rfl
  | true =>
    exfalso
    simp only [isWS, Bool.or_eq_true, decide_eq_true_eq] at hw
    rcases hw with rfl | rfl
    · exact absurd h (by decide)
    · exact absurd h (by decide)

theorem char_ne_of_toNat_ne {c d : Char} (h : c.toNat ≠ d.toNat) : c ≠ d :=
  fun e => h (by rw [e])

/-- Branch facts for a character that can start a numeric operand. -/
theorem digit_start_facts {c : Char} (h : isDigitC c = true) :
    isWS c = false ∧ c ≠ '\n' ∧ c ≠ '#' ∧ c ≠ ',' ∧ c ≠ '%' ∧ c ≠ '$' ∧
    isAlphaC c = false ∧ c ≠ '(' ∧ c ≠ ')' := by
  obtain ⟨h1, h2⟩ := isDigitC_toNat h
  refine ⟨isWS_false_of_toNat (by omega), ?_, ?_, ?_, ?_, ?_, ?_, ?_, ?_⟩
  · exact char_ne_of_toNat_ne (by intro e; rw [show ('\n').toNat = 10 from rfl] at e; omega)
  · exact char_ne_of_toNat_ne (by intro e; rw [show ('#').toNat = 35 from rfl] at e; omega)
  · exact char_ne_of_toNat_ne (by intro e; rw [show (',').toNat = 44 from rfl] at e; omega)
  · exact char_ne_of_toNat_ne (by intro e; rw [show ('%').toNat = 37 from rfl] at e; omega)
  · exact char_ne_of_toNat_ne (by intro e; rw [show ('$').toNat = 36 from rfl] at e; omega)
  · cases ha : isAlphaC c with
    | false => rfl
    | true => exfalso; rcases isAlphaC_toNat ha with ⟨a, _⟩ | ⟨_, b⟩ <;> omega
  · exact char_ne_of_toNat_ne (by intro e; rw [show ('(').toNat = 40 from rfl] at e; omega)
  · exact char_ne_of_toNat_ne (by intro e; rw [show (')').toNat = 41 from rfl] at e; omega)

/-- Branch facts for an alphabetic character. -/
theorem alpha_start_facts {c : Char} (h : isAlphaC c = true) :
    isWS c = false ∧ c ≠ '\n' ∧ c ≠ '#' ∧ c ≠ ',' ∧ c ≠ '%' ∧ c ≠ '$' := by
  rcases isAlphaC_toNat h with ⟨h1, h2⟩ | ⟨h1, h2⟩ <;>
    exact ⟨isWS_false_of_toNat (by omega),
      char_ne_of_toNat_ne (by intro e; rw [show ('\n').toNat = 10 from rfl] at e; omega),
      char_ne_of_toNat_ne (by intro e; rw [show ('#').toNat = 35 from rfl] at e; omega),
      char_ne_of_toNat_ne (by intro e; rw [show (',').toNat = 44 from rfl] at e; omega),
      char_ne_of_toNat_ne (by intro e; rw [show ('%').toNat = 37 from rfl] at e; omega),
      char_ne_of_toNat_ne (by intro e; rw [show ('$').toNat = 36 from rfl] at e; omega)⟩





theorem takeWhile_app (p : Char → Bool) (xs rest : List Char)
    (hx : ∀ c ∈ xs, p c = true) (hr : ∀ c ∈ rest.head?, p c = false) :
    (xs ++ rest).takeWhile p = xs := by
  induction xs with
  | nil =>
    cases rest with
    | nil => rfl
    | cons d ds => simp [List.takeWhile_cons, hr d rfl]
  | cons x xs ih =>
    have hpx : p x = true := hx x (by simp)
    simp [List.takeWhile_cons, hpx, ih (fun c hc => hx c (by simp [hc]))]

theorem dropWhile_app (p : Char → Bool) (xs rest : List Char)
    (hx : ∀ c ∈ xs, p c = true) (hr : ∀ c ∈ rest.head?, p c = false) :
    (xs ++ rest).dropWhile p = rest := by
  induction xs with
  | nil =>
    cases rest with
    | nil => rfl
    | cons d ds => simp [List.dropWhile_cons, hr d rfl]
  | cons x xs ih =>
    have hpx : p x = true := hx x (by simp)
    simp [List.dropWhile_cons, hpx, ih (fun c hc => hx c (by simp [hc]))]

theorem isUpHexC_of_toNat {c : Char}
    (h : (48 ≤ c.toNat ∧ c.toNat ≤ 57) ∨ (65 ≤ c.toNat ∧ c.toNat ≤ 70)) :
    isUpHexC c = true := by
  simp only [isUpHexC, isDigitC, Bool.or_eq_true, Bool.and_eq_true, decide_eq_true_eq]
  rcases h with ⟨a, b⟩ | ⟨a, b⟩
  · exact Or.inl ⟨a, b⟩
  · exact Or.inr ⟨a, b⟩

theorem isHexC_of_digit {c : Char} (h : isDigitC c = true) : isHexC c = true := by
  simp [isHexC, h]

theorem isHexC_of_upHex {c : Char} (h : isUpHexC c = true) : isHexC c = true := by
  rcases isUpHexC_toNat h with ⟨a, b⟩ | ⟨a, b⟩
  · exact isHexC_of_digit (isDigitC_of_toNat a b)
  · simp only [isHexC, Bool.or_eq_true, Bool.and_eq_true, decide_eq_true_eq]
    exact Or.inr ⟨a, b⟩

theorem isLowerC_false_of_toNat {c : Char} (h : c.toNat < 97 ∨ 122 < c.toNat) :
    isLowerC c = false := by
  cases hl : isLowerC c with
  | false => rfl
  | true => exfalso; obtain ⟨a, b⟩ := isLowerC_toNat hl; omega

theorem upChar_not_lower {c : Char} (h : isLowerC c = false) : upChar c = c := by
  simp [upChar, h]

theorem upChar_digit {c : Char} (h : isDigitC c = true) : upChar c = c := by
  obtain ⟨a, b⟩ := isDigitC_toNat h
  exact upChar_not_lower (isLowerC_false_of_toNat (Or.inl (by omega)))

theorem upChar_upHex {c : Char} (h : isUpHexC c = true) : upChar c = c := by
  rcases isUpHexC_toNat h with ⟨a, b⟩ | ⟨a, b⟩ <;>
    exact upChar_not_lower (isLowerC_false_of_toNat (Or.inl (by omega)))

theorem upChar_hex {c : Char} (h : isHexC c = true) : isUpHexC (upChar c) = true := by
  cases hl : isLowerC c with
  | false =>
    rw [upChar_not_lower hl]
    rcases isHexC_toNat h with ⟨a, b⟩ | ⟨a, b⟩ | ⟨a, b⟩
    · exact isUpHexC_of_toNat (Or.inl ⟨a, b⟩)
    · exfalso
      have hlt : isLowerC c = true := by
        simp only [isLowerC, Bool.and_eq_true, decide_eq_true_eq]
        exact ⟨show (97 : Nat) ≤ c.toNat by omega, show c.toNat ≤ 122 by omega⟩
      rw [hlt] at hl
      exact Bool.noConfusion hl
    · exact isUpHexC_of_toNat (Or.inr ⟨a, b⟩)
  | true =>
    obtain ⟨a, b⟩ := isLowerC_toNat hl
    rcases isHexC_toNat h with ⟨e, f⟩ | ⟨e, f⟩ | ⟨e, f⟩
    · omega
    · have hc : c.toNat = 97 ∨ c.toNat = 98 ∨ c.toNat = 99 ∨ c.toNat = 100 ∨
          c.toNat = 101 ∨ c.toNat = 102 := by omega
      have h6 : c = 'a' ∨ c = 'b' ∨ c = 'c' ∨ c = 'd' ∨ c = 'e' ∨ c = 'f' := by
        rcases hc with hc | hc | hc | hc | hc | hc
        · exact Or.inl (char_eq_of_toNat (by rw [hc]; decide))
        · exact Or.inr (Or.inl (char_eq_of_toNat (by rw [hc]; decide)))
        · exact Or.inr (Or.inr (Or.inl (char_eq_of_toNat (by rw [hc]; decide))))
        · exact Or.inr (Or.inr (Or.inr (Or.inl (char_eq_of_toNat (by rw [hc]; decide)))))
        · exact Or.inr (Or.inr (Or.inr (Or.inr (Or.inl
            (char_eq_of_toNat (by rw [hc]; decide))))))
        · exact Or.inr (Or.inr (Or.inr (Or.inr (Or.inr
            (char_eq_of_toNat (by rw [hc]; decide))))))
      rcases h6 with rfl | rfl | rfl | rfl | rfl | rfl <;> decide
    · omega

theorem upStr_digits {l : List Char} (h : ∀ c ∈ l, isDigitC c = true) : upStr l = l := by
  induction l with
  | nil => rfl
  | cons c cs ih =>
    have hcs := ih (fun d hd => h d (by simp [hd]))
    simp only [upStr, List.map_cons] at hcs ⊢
    rw [upChar_digit (h c (by simp)), hcs]

theorem upStr_upHex {l : List Char} (h : ∀ c ∈ l, isUpHexC c = true) : upStr l = l := by
  induction l with
  | nil => rfl
  | cons c cs ih =>
    have hcs := ih (fun d hd => h d (by simp [hd]))
    simp only [upStr, List.map_cons] at hcs ⊢
    rw [upChar_upHex (h c (by simp)), hcs]

theorem upStr_hex {l : List Char} (h : ∀ c ∈ l, isHexC c = true) :
    ∀ c ∈ upStr l, isUpHexC c = true := by
  intro c hc
  simp only [upStr, List.mem_map] at hc
  obtain ⟨d, hd, rfl⟩ := hc
  exact upChar_hex (h d hd)

theorem char_toNat_ofNat {n : Nat} (h : Nat.isValidChar n) : (Char.ofNat n).toNat = n := by
  rw [Char.ofNat, dif_pos h, Char.ofNatAux]
  exact BitVec.toNat_ofNatLt _ _

theorem upChar_toNat_of_lower {c : Char} (h : isLowerC c = true) :
    (upChar c).toNat = c.toNat - 32 := by
  obtain ⟨a, b⟩ := isLowerC_toNat h
  rw [upChar, if_pos h]
  exact char_toNat_ofNat (Or.inl (by omega))

theorem upChar_not_lower_out (c : Char) : isLowerC (upChar c) = false := by
  cases h : isLowerC c with
  | false => rw [upChar_not_lower h]; exact h
  | true =>
    obtain ⟨a, b⟩ := isLowerC_toNat h
    have ht := upChar_toNat_of_lower h
    exact isLowerC_false_of_toNat (Or.inl (by omega))

theorem upStr_no_lower {l : List Char} : ∀ c ∈ upStr l, isLowerC c = false := by
  intro c hc
  simp only [upStr, List.mem_map] at hc
  obtain ⟨d, -, rfl⟩ := hc
  exact upChar_not_lower_out d

/-- Branch facts for an alphanumeric character (register names, digits). -/
theorem alnum_char_facts {c : Char} (h : isAlnumC c = true) :
    isWS c = false ∧ c ≠ '\n' ∧ c ≠ ',' ∧ c ≠ '(' ∧ c ≠ ')' ∧ c ≠ '%' ∧ c ≠ '#' ∧
    c ≠ '$' ∧ notParenEnd c = true := by
  rcases isAlnumC_toNat h with ⟨h1, h2⟩ | ⟨h1, h2⟩ | ⟨h1, h2⟩ <;>
    · have hrp : c ≠ ')' :=
        char_ne_of_toNat_ne (by intro e; rw [show (')').toNat = 41 from rfl] at e; omega)
      have hnl : c ≠ '\n' :=
        char_ne_of_toNat_ne (by intro e; rw [show ('\n').toNat = 10 from rfl] at e; omega)
      refine ⟨isWS_false_of_toNat (by omega), hnl,
        char_ne_of_toNat_ne (by intro e; rw [show (',').toNat = 44 from rfl] at e; omega),
        char_ne_of_toNat_ne (by intro e; rw [show ('(').toNat = 40 from rfl] at e; omega),
        hrp,
        char_ne_of_toNat_ne (by intro e; rw [show ('%').toNat = 37 from rfl] at e; omega),
        char_ne_of_toNat_ne (by intro e; rw [show ('#').toNat = 35 from rfl] at e; omega),
        char_ne_of_toNat_ne (by intro e; rw [show ('$').toNat = 36 from rfl] at e; omega),
        by simp [notParenEnd, hrp, hnl]⟩


theorem takeWhile_pred (p : Char → Bool) (l : List Char) :
    ∀ c ∈ l.takeWhile p, p c = true := by
  induction l with
  | nil => intro c hc; simp [List.takeWhile] at hc
  | cons x xs ih =>
    intro c hc
    rw [List.takeWhile_cons] at hc
    by_cases hp : p x = true
    · rw [if_pos hp] at hc
      rcases List.mem_cons.mp hc with rfl | hc2
      · exact hp
      · exact ih c hc2
    · rw [if_neg hp] at hc
      simp at hc

theorem scanDec_ok {ng : Bool} {l : List Char} {n : NumLit} {rest : List Char}
    (h : scanDec ng l = some (n, rest)) :
    n.neg = ng ∧ n.hex = false ∧ n.xChar = 'x' ∧ n.digits ≠ [] ∧
    ∀ c ∈ n.digits, isDigitC c = true := by
  unfold scanDec at h
  split at h
  · exact absurd h (by simp)
  · rename_i hne
    obtain ⟨rfl, rfl⟩ := Prod.mk.injEq .. ▸ Option.some.inj h
    exact ⟨rfl, rfl, rfl, hne, takeWhile_pred _ _⟩

theorem scanMag_ok {ng : Bool} {l : List Char} {n : NumLit} {rest : List Char}
    (h : scanMag ng l = some (n, rest)) :
    n.neg = ng ∧ ScannedLit n ∧ (n.hex = true → n.xChar ∈ l) := by
  unfold scanMag at h
  split at h
  · rename_i c0 x r
    split at h
    · rename_i hx
      split at h
      · exact absurd h (by simp)
      · rename_i hne
        obtain ⟨rfl, rfl⟩ := Prod.mk.injEq .. ▸ Option.some.inj h
        exact ⟨rfl, ⟨hne, fun _ => ⟨hx.2, takeWhile_pred _ _⟩, fun hcon => by simp at hcon⟩,
          fun _ => by simp⟩
    · obtain ⟨h1, h2, h3, h4, h5⟩ := scanDec_ok h
      exact ⟨h1, ⟨h4, fun hcon => by rw [h2] at hcon; exact Bool.noConfusion hcon,
        fun _ => ⟨h3, h5⟩⟩, fun hcon => by rw [h2] at hcon; exact Bool.noConfusion hcon⟩
  · obtain ⟨h1, h2, h3, h4, h5⟩ := scanDec_ok h
    exact ⟨h1, ⟨h4, fun hcon => by rw [h2] at hcon; exact Bool.noConfusion hcon,
      fun _ => ⟨h3, h5⟩⟩, fun hcon => by rw [h2] at hcon; exact Bool.noConfusion hcon⟩

theorem scanNumber_ok {l : List Char} {n : NumLit} {rest : List Char}
    (h : scanNumber l = some (n, rest)) :
    ScannedLit n ∧ (n.hex = true → n.xChar ∈ l) := by
  unfold scanNumber at h
  split at h
  · rename_i c r
    split at h
    · obtain ⟨-, hs, hx⟩ := scanMag_ok h
      exact ⟨hs, fun hh => List.mem_cons_of_mem c (hx hh)⟩
    · obtain ⟨-, hs, hx⟩ := scanMag_ok h
      exact ⟨hs, hx⟩
  · obtain ⟨-, hs, hx⟩ := scanMag_ok h
    exact ⟨hs, hx⟩

theorem canon_wf {n : NumLit} (h : ScannedLit n) : LitWf n.canon := by
  obtain ⟨h1, h2, h3⟩ := h
  refine ⟨by simpa [NumLit.canon, upStr] using h1, fun hx => ?_, fun hx => ?_⟩
  · obtain ⟨ha, hb⟩ := h2 (by simpa [NumLit.canon] using hx)
    exact ⟨by simpa [NumLit.canon] using ha, by
      simpa [NumLit.canon] using upStr_hex hb⟩
  · obtain ⟨ha, hb⟩ := h3 (by simpa [NumLit.canon] using hx)
    refine ⟨by simpa [NumLit.canon] using ha, ?_⟩
    simp only [NumLit.canon]
    rw [upStr_digits hb]
    exact hb

theorem canon_fix {l : NumLit} (h : LitWf l) : l.canon = l := by
  obtain ⟨h1, h2, h3⟩ := h
  cases hx : l.hex
  · obtain ⟨ha, hb⟩ := h3 hx
    simp only [NumLit.canon]
    rw [upStr_digits hb]
  · obtain ⟨ha, hb⟩ := h2 hx
    simp only [NumLit.canon]
    rw [upStr_upHex hb]

theorem digit_ne_xX {c : Char} (h : isDigitC c = true) : c ≠ 'x' ∧ c ≠ 'X' := by
  obtain ⟨a, b⟩ := isDigitC_toNat h
  exact ⟨char_ne_of_toNat_ne (by intro e; rw [show ('x').toNat = 120 from rfl] at e; omega),
    char_ne_of_toNat_ne (by intro e; rw [show ('X').toNat = 88 from rfl] at e; omega)⟩

theorem digit_ne_dash {c : Char} (h : isDigitC c = true) : c ≠ '-' := by
  obtain ⟨a, b⟩ := isDigitC_toNat h
  exact char_ne_of_toNat_ne (by intro e; rw [show ('-').toNat = 45 from rfl] at e; omega)

theorem scanDec_render {ng : Bool} (ds rest : List Char) (hne : ds ≠ [])
    (hd : ∀ c ∈ ds, isDigitC c = true)
    (hr : ∀ d ∈ rest.head?, isDigitC d = false) :
    scanDec ng (ds ++ rest) = some (⟨ng, false, 'x', ds⟩, rest) := by
  unfold scanDec
  rw [takeWhile_app _ _ _ hd hr, dropWhile_app _ _ _ hd hr, if_neg hne]

theorem scanMag_render (ng : Bool) (l : NumLit) (rest : List Char) (hwf : LitWf l)
    (hr : ∀ d ∈ rest.head?, isHexC d = false ∧ d ≠ 'x' ∧ d ≠ 'X') :
    scanMag ng (l.renderMag ++ rest) = some ({ l with neg := ng }, rest) := by
  have hrdig : ∀ d ∈ rest.head?, isDigitC d = false := by
    intro d hd
    cases hdg : isDigitC d with
    | false => rfl
    | true =>
      exfalso
      have hh := isHexC_of_digit hdg
      rw [(hr d hd).1] at hh
      exact Bool.noConfusion hh
  obtain ⟨lneg, lhex, lx, ldig⟩ := l
  obtain ⟨h1, h2, h3⟩ := hwf
  simp only at h1 h2 h3
  cases lhex with
  | true =>
    obtain ⟨hxc, hdig⟩ := h2 rfl
    have hrhex : ∀ d ∈ rest.head?, isHexC d = false := fun d hd => (hr d hd).1
    have hdhex : ∀ c ∈ ldig, isHexC c = true := fun c hc => isHexC_of_upHex (hdig c hc)
    show scanMag ng (('0' :: lx :: ldig) ++ rest) = _
    simp only [List.cons_append, scanMag]
    rw [if_pos ⟨trivial, hxc⟩]
    rw [takeWhile_app _ _ _ hdhex hrhex, dropWhile_app _ _ _ hdhex hrhex, if_neg h1]
  | false =>
    obtain ⟨hxc, hdig⟩ := h3 rfl
    subst hxc
    have hscan : scanDec ng (ldig ++ rest) =
        some ({ neg := ng, hex := false, xChar := 'x', digits := ldig }, rest) :=
      scanDec_render ldig rest h1 hdig hrdig
    show scanMag ng (ldig ++ rest) = _
    rcases ldig with _ | ⟨d0, ds⟩
    · exact absurd rfl h1
    · have hd0 : isDigitC d0 = true := hdig d0 (by simp)
      rcases ds with _ | ⟨d1, ds1⟩
      · rcases rest with _ | ⟨r0, rs⟩
        · simp only [List.cons_append, List.nil_append, scanMag]
          simpa using hscan
        · have hx0 : ¬(d0 = '0' ∧ (r0 = 'x' ∨ r0 = 'X')) := by
            rintro ⟨-, hxx⟩
            obtain ⟨-, hnx, hnX⟩ := hr r0 (by simp)
            rcases hxx with rfl | rfl
            · exact hnx rfl
            · exact hnX rfl
          simp only [List.cons_append, List.nil_append, scanMag]
          rw [if_neg hx0]
          simpa using hscan
      · have hd1 : isDigitC d1 = true := hdig d1 (by simp)
        have hx0 : ¬(d0 = '0' ∧ (d1 = 'x' ∨ d1 = 'X')) := by
          rintro ⟨-, hxx⟩
          obtain ⟨hnx, hnX⟩ := digit_ne_xX hd1
          rcases hxx with rfl | rfl
          · exact hnx rfl
          · exact hnX rfl
        simp only [List.cons_append, scanMag]
        rw [if_neg hx0]
        simpa using hscan

theorem scanNumber_render (l : NumLit) (rest : List Char) (hwf : LitWf l)
    (hr : ∀ d ∈ rest.head?, isHexC d = false ∧ d ≠ 'x' ∧ d ≠ 'X') :
    scanNumber (l.render ++ rest) = some (l, rest) := by
  have hmag := scanMag_render l.neg l rest hwf hr
  have hself : { l with neg := l.neg } = l := rfl
  rw [hself] at hmag
  cases hn : l.neg with
  | true =>
    have hshape : l.render ++ rest = '-' :: (l.renderMag ++ rest) := by
      simp [NumLit.render, hn]
    rw [hshape]
    simp only [scanNumber]
    rw [if_pos trivial]
    rw [hn] at hmag
    exact hmag
  | false =>
    have hshape : l.render ++ rest = l.renderMag ++ rest := by
      simp [NumLit.render, hn]
    have hhead : ∃ c0 tl, l.renderMag ++ rest = c0 :: tl ∧ c0 ≠ '-' := by
      obtain ⟨h1, h2, h3⟩ := hwf
      cases hx : l.hex with
      | true =>
        refine ⟨'0', l.xChar :: (l.digits ++ rest), by simp [NumLit.renderMag, hx], by decide⟩
      | false =>
        rcases hdg : l.digits with _ | ⟨d0, ds⟩
        · exact absurd hdg h1
        · refine ⟨d0, ds ++ rest, by simp [NumLit.renderMag, hx, hdg], ?_⟩
          exact digit_ne_dash ((h3 hx).2 d0 (by simp [hdg]))
    obtain ⟨c0, tl, hshape2, hc0⟩ := hhead
    rw [hshape, hshape2]
    simp only [scanNumber]
    rw [if_neg hc0]
    rw [← hshape2]
    rw [hn] at hmag
    exact hmag


theorem splitComma_no_comma {f : List Char} (h : ∀ c ∈ f, c ≠ ',') :
    splitComma f = [f] := by
  induction f with
  | nil => rfl
  | cons c cs ih =>
    simp only [splitComma]
    rw [if_neg (h c (by simp))]
    rw [ih (fun d hd => h d (by simp [hd]))]

theorem splitComma_append {f : List Char} (r : List Char) (h : ∀ c ∈ f, c ≠ ',') :
    splitComma (f ++ ',' :: r) = f :: splitComma r := by
  induction f with
  | nil =>
    simp only [List.nil_append, splitComma]
    rw [if_pos trivial]
  | cons c cs ih =>
    simp only [List.cons_append, splitComma, List.append_eq]
    rw [if_neg (h c (by simp))]
    rw [ih (fun d hd => h d (by simp [hd]))]

theorem trimWS_dropWhile {f : List Char} (h : ∀ c ∈ f, isWS c = false) :
    f.dropWhile isWS = f := by
  cases f with
  | nil => rfl
  | cons c cs => simp [List.dropWhile_cons, h c (by simp)]

theorem trimWS_eq {f : List Char} (h : ∀ c ∈ f, isWS c = false) : trimWS f = f := by
  unfold trimWS
  rw [trimWS_dropWhile h]
  rw [trimWS_dropWhile (fun c hc => h c (List.mem_reverse.mp hc))]
  exact List.reverse_reverse f

theorem regField_sound {f : List Char} {name : List Char} (h : regField f = some name) :
    name ∈ SUPPORTED_REGISTERS ∧ f = '%' :: name := by
  unfold regField at h
  split at h
  · rename_i c name2
    split at h
    · rename_i hcond
      obtain rfl := Option.some.inj h
      obtain ⟨rfl, hmem⟩ := hcond
      exact ⟨hmem, rfl⟩
    · exact absurd h (by simp)
  · exact absurd h (by simp)

theorem regField_self {name : List Char} (h : name ∈ SUPPORTED_REGISTERS) :
    regField ('%' :: name) = some name := by
  simp only [regField]
  rw [if_pos ⟨trivial, h⟩]

theorem baseField3_sound {b : List Char} {ob : Option (List Char)}
    (h : baseField3 b = .ok ob) :
    (b = [] ∧ ob = none) ∨ (∃ bb, ob = some bb ∧ bb ∈ SUPPORTED_REGISTERS ∧ b = '%' :: bb) := by
  unfold baseField3 at h
  split at h
  · rename_i hb
    obtain rfl := Except.ok.inj h
    exact Or.inl ⟨hb, rfl⟩
  · split at h
    · rename_i bb hbb
      obtain rfl := Except.ok.inj h
      obtain ⟨hmem, hfb⟩ := regField_sound hbb
      exact Or.inr ⟨bb, rfl, hmem, hfb⟩
    · exact absurd h (by simp)

theorem opt_mem_lemma {α : Type} {x y : α} (hx : x ∈ (some y : Option α)) : x = y := by
  rw [Option.mem_def] at hx
  exact (Option.some.inj hx).symm

theorem parseMemFields_sound {dl : Option NumLit} {content : List Char} {t : Tok}
    (hdl : ∀ x ∈ dl, LitWf x) (h : parseMemFields dl content = .ok t) : TokWf t := by
  unfold parseMemFields at h
  split at h
  · rename_i b
    split at h
    · rename_i bb hbb
      obtain rfl := Except.ok.inj h
      obtain ⟨hmem, -⟩ := regField_sound hbb
      refine ⟨dl, none, hdl, by intro x hx; simp at hx, rfl, rfl, ?_, by intro x hx; simp at hx,
        Or.inr ⟨Or.inl ⟨rfl, rfl, rfl⟩, rfl⟩⟩
      intro x hx
      rw [opt_mem_lemma hx]
      exact hmem
    · exact absurd h (by simp)
  · rename_i b i
    split at h
    · rename_i bb hbb
      split at h
      · rename_i ii hii
        obtain rfl := Except.ok.inj h
        obtain ⟨hmemb, -⟩ := regField_sound hbb
        obtain ⟨hmemi, -⟩ := regField_sound hii
        refine ⟨dl, none, hdl, by intro x hx; simp at hx, rfl, rfl, ?_, ?_,
          Or.inr ⟨Or.inr (Or.inl ⟨rfl, rfl, rfl⟩), rfl⟩⟩
        · intro x hx
          rw [opt_mem_lemma hx]
          exact hmemb
        · intro x hx
          rw [opt_mem_lemma hx]
          exact hmemi
      · exact absurd h (by simp)
    · exact absurd h (by simp)
  · rename_i f0 f1 f2 heq
    split at h
    · exact absurd h (by simp)
    · rename_i ob hob
      split at h
      · exact absurd h (by simp)
      · rename_i ii hii
        split at h
        · rename_i n hn
          obtain rfl := Except.ok.inj h
          obtain ⟨hmemi, -⟩ := regField_sound hii
          have hwfn : LitWf n.canon := canon_wf (scanNumber_ok hn).1
          have hxchar : n.canon.hex = true → n.canon.xChar = 'X' := by
            intro hh
            have hsc := scanNumber_ok hn
            have hmemx : n.xChar ∈ f2 := hsc.2 (by simpa [NumLit.canon] using hh)
            have hf2 : f2 ∈ List.map (fun f => upStr (trimWS f)) (splitComma content) := by
              rw [heq]
              simp
            obtain ⟨f0x, -, hfx⟩ := List.mem_map.mp hf2
            have hnlow : isLowerC n.xChar = false := by
              rw [← hfx] at hmemx
              exact upStr_no_lower n.xChar hmemx
            have hxx := ((scanNumber_ok hn).1.2.1 (by simpa [NumLit.canon] using hh)).1
            rcases hxx with hx1 | hx1
            · rw [hx1] at hnlow
              exact absurd hnlow (by decide)
            · simpa [NumLit.canon] using hx1
          refine ⟨dl, some n.canon, hdl, ?_, rfl, rfl, ?_, ?_,
            Or.inr ⟨Or.inr (Or.inr ⟨rfl, rfl⟩), rfl⟩⟩
          · intro x hx
            rw [opt_mem_lemma hx]
            exact ⟨hwfn, hxchar⟩
          · intro x hx
            rcases baseField3_sound hob with ⟨rfl, rfl⟩ | ⟨bb, rfl, hmemb, rfl⟩
            · simp at hx
            · rw [opt_mem_lemma hx]
              exact hmemb
          · intro x hx
            rw [opt_mem_lemma hx]
            exact hmemi
        · exact absurd h (by simp)
  · exact absurd h (by simp)

theorem memParen_sound {dl : Option NumLit} {l : List Char} {t : Tok} {rest : List Char}
    (hdl : ∀ x ∈ dl, LitWf x) (h : memParen dl l = .ok (t, rest)) : TokWf t := by
  unfold memParen at h
  split at h
  · split at h
    · split at h
      · rename_i t2 ht2
        obtain ⟨rfl, rfl⟩ := Prod.mk.injEq .. ▸ Except.ok.inj h
        exact parseMemFields_sound hdl ht2
      · exact absurd h (by simp)
    · exact absurd h (by simp)
  · exact absurd h (by simp)

theorem splitVariant_sound {up b : List Char} {res : List Char × Option (List Char)}
    (h : splitVariant up b = some res) :
    res.1 = b ∧ ((res.2 = none ∧ up = b) ∨
      ∃ vv, res.2 = some vv ∧ vv ∈ SUPPORTED_VARIANTS ∧ up = b ++ vv) := by
  unfold splitVariant at h
  split at h
  · rename_i hub
    obtain rfl := Option.some.inj h
    exact ⟨rfl, Or.inl ⟨rfl, hub⟩⟩
  · split at h
    · rename_i hcond
      obtain rfl := Option.some.inj h
      simp only [Bool.and_eq_true, decide_eq_true_eq] at hcond
      obtain ⟨hpre, hmem⟩ := hcond
      obtain ⟨tl, htl⟩ := List.isPrefixOf_iff_prefix.mp hpre
      have hdrop : up.drop b.length = tl := by
        rw [← htl]
        exact List.drop_left b tl
      refine ⟨rfl, Or.inr ⟨up.drop b.length, rfl, hmem, ?_⟩⟩
      rw [hdrop, htl]
    · exact absurd h (by simp)

theorem splitMnemonic_sound {up : List Char} {b : List Char} {v : Option (List Char)}
    (h : splitMnemonic up = some (b, v)) :
    b ∈ SUPPORTED_INSTRUCTIONS ∧ ((v = none ∧ up = b) ∨
      ∃ vv, v = some vv ∧ vv ∈ SUPPORTED_VARIANTS ∧ up = b ++ vv) := by
  unfold splitMnemonic at h
  rw [SUPPORTED_INSTRUCTIONS] at h
  rw [List.findSome?_cons] at h
  split at h
  · rename_i res heq
    obtain rfl := Option.some.inj h
    obtain ⟨h1, h2⟩ := splitVariant_sound heq
    subst h1
    exact ⟨by rw [SUPPORTED_INSTRUCTIONS]; simp, h2⟩
  · rw [List.findSome?_cons] at h
    split at h
    · rename_i res heq
      obtain rfl := Option.some.inj h
      obtain ⟨h1, h2⟩ := splitVariant_sound heq
      subst h1
      exact ⟨by rw [SUPPORTED_INSTRUCTIONS]; simp, h2⟩
    · simp at h

theorem acc_push {acc : List Tok} {t0 : Tok} (hacc : ∀ t ∈ acc, TokWf t) (h0 : TokWf t0) :
    ∀ t ∈ acc ++ [t0], TokWf t := by
  intro t ht
  rcases List.mem_append.mp ht with h | h
  · exact hacc t h
  · rw [List.mem_singleton.mp h]
    exact h0

theorem lexLoop_wf : ∀ (fuel : Nat) (seen : Bool) (input : List Char) (acc ts : List Tok),
    lexLoop fuel seen input acc = .ok ts → (∀ t ∈ acc, TokWf t) → ∀ t ∈ ts, TokWf t := by
  intro fuel
  induction fuel with
  | zero =>
    intro seen input acc ts h hacc
    simp [lexLoop] at h
  | succ n ih =>
    intro seen input acc ts h hacc
    cases input with
    | nil =>
      rw [lexLoop] at h
      obtain rfl := Except.ok.inj h
      exact hacc
    | cons c cs =>
      rw [lexLoop] at h
      by_cases hws : isWS c = true
      · rw [if_pos hws] at h
        exact ih _ _ _ _ h hacc
      rw [if_neg hws] at h
      by_cases hnl : c = '\n'
      · rw [if_pos hnl] at h
        exact ih _ _ _ _ h hacc
      rw [if_neg hnl] at h
      by_cases hhash : c = '#'
      · rw [if_pos hhash] at h
        exact ih _ _ _ _ h hacc
      rw [if_neg hhash] at h
      by_cases hcomma : c = ','
      · rw [if_pos hcomma] at h
        exact ih _ _ _ _ h (acc_push hacc trivial)
      rw [if_neg hcomma] at h
      by_cases hpct : c = '%'
      · rw [if_pos hpct] at h
        split at h
        · rename_i hmem
          exact ih _ _ _ _ h (acc_push hacc ⟨upStr (cs.takeWhile isAlnumC), hmem, rfl⟩)
        · exact absurd h (by simp)
      rw [if_neg hpct] at h
      by_cases hdollar : c = '$'
      · rw [if_pos hdollar] at h
        split at h
        · exact absurd h (by simp)
        · rename_i lit rest hsc
          exact ih _ _ _ _ h
            (acc_push hacc ⟨lit.canon, canon_wf (scanNumber_ok hsc).1, rfl, rfl⟩)
      rw [if_neg hdollar] at h
      by_cases halpha : isAlphaC c = true
      · rw [if_pos halpha] at h
        cases seen with
        | true => exact absurd h (by simp)
        | false =>
          simp only [Bool.false_eq_true, if_false] at h
          split at h
          · exact absurd h (by simp)
          · rename_i base variant hsplit
            have hwf : TokWf (.instr (upStr ((c :: cs).takeWhile isAlphaC)) base variant) := by
              obtain ⟨h1, h2⟩ := splitMnemonic_sound hsplit
              exact ⟨h1, by
                rcases h2 with ⟨rfl, hup⟩ | ⟨vv, rfl, hmem, hup⟩
                · exact Or.inl ⟨rfl, hup⟩
                · exact Or.inr ⟨vv, rfl, hmem, hup⟩⟩
            split at h
            · exact ih _ _ _ _ h (acc_push hacc hwf)
            · split at h
              · exact ih _ _ _ _ h (acc_push hacc hwf)
              · exact absurd h (by simp)
      rw [if_neg halpha] at h
      by_cases hparen : c = '('
      · rw [if_pos hparen] at h
        split at h
        · exact absurd h (by simp)
        · rename_i t2 rest hmp
          exact ih _ _ _ _ h
            (acc_push hacc (memParen_sound (by intro x hx; simp at hx) hmp))
      rw [if_neg hparen] at h
      by_cases hdig : (isDigitC c || c = '-') = true
      · rw [if_pos hdig] at h
        split at h
        · exact absurd h (by simp)
        · rename_i lit rest hsc
          have hwflit : LitWf lit.canon := canon_wf (scanNumber_ok hsc).1
          have hwfbare : TokWf (.mem lit.canon.render (some lit.canon.value) none none none) := by
            refine ⟨some lit.canon, none, ?_, by intro x hx; simp at hx, rfl, rfl,
              by intro x hx; simp at hx, by intro x hx; simp at hx,
              Or.inl ⟨lit.canon, rfl, rfl, rfl, rfl, rfl⟩⟩
            intro x hx
            rw [opt_mem_lemma hx]
            exact hwflit
          split at h
          · exact ih _ _ _ _ h (acc_push hacc hwfbare)
          · rename_i d rest2
            by_cases hdp : d = '('
            · rw [if_pos hdp] at h
              split at h
              · exact absurd h (by simp)
              · rename_i t2 r3 hmp
                have hdl : ∀ x ∈ (some lit.canon : Option NumLit), LitWf x := by
                  intro x hx
                  rw [opt_mem_lemma hx]
                  exact hwflit
                exact ih _ _ _ _ h (acc_push hacc (memParen_sound hdl hmp))
            · rw [if_neg hdp] at h
              split at h
              · exact ih _ _ _ _ h (acc_push hacc hwfbare)
              · exact absurd h (by simp)
      rw [if_neg hdig] at h
      by_cases hrp : c = ')'
      · rw [if_pos hrp] at h
        exact absurd h (by simp)
      · rw [if_neg hrp] at h
        exact absurd h (by simp)

/-- C2: for every input on which `tokenize` succeeds, every MEMORY token in
the output has at least one of displacement, base, index set, and has scale
set only if index is also set. -/
theorem c2_memory_token_invariant (s : String) (ts : List Tok)
    (h : tokenize s = .ok ts) (tok : List Char) (d : Option Int)
    (b i : Option (List Char)) (sc : Option Int)
    (hmem : Tok.mem tok d b i sc ∈ ts) :
    (d.isSome = true ∨ b.isSome = true ∨ i.isSome = true) ∧
    (sc.isSome = true → i.isSome = true) := by
  unfold tokenize tokenizeL at h
  have hwf := lexLoop_wf _ _ _ _ _ h (by intro t ht; simp at ht) _ hmem
  obtain ⟨dl, sl, hdl, hsl, hd, hsc, hb, hi, hshape⟩ := hwf
  rcases hshape with ⟨l, rfl, rfl, rfl, rfl, htok⟩ | ⟨hshape, htok⟩
  · subst hd
    subst hsc
    exact ⟨Or.inl (by simp), by simp⟩
  · subst hd
    subst hsc
    rcases hshape with ⟨hbs, rfl, rfl⟩ | ⟨hbs, his, rfl⟩ | ⟨his, hss⟩
    · exact ⟨Or.inr (Or.inl hbs), by simp⟩
    · exact ⟨Or.inr (Or.inr his), fun _ => his⟩
    · refine ⟨Or.inr (Or.inr ?_), fun _ => ?_⟩ <;>
      · rcases Option.isSome_iff_exists.mp his with ⟨ii, rfl⟩
        simp
    
/-- C2 witness -/
theorem c2_memory_token_invariant_witness :
    ((some (1194684 : Int)).isSome = true ∨ (none : Option (List Char)).isSome = true ∨
      (none : Option (List Char)).isSome = true) ∧
    ((none : Option Int).isSome = true → (none : Option (List Char)).isSome = true) :=
  c2_memory_token_invariant "MOV 0x123abc, %rax"
    [.instr "MOV".data "MOV".data none,
     .mem "0x123ABC".data (some 1194684) none none none,
     .comma, .reg "%RAX".data]
    (by decide) "0x123ABC".data (some 1194684) none none none (by decide)

/-- C3: tokenizing `MOVABSQ $0x1234567890abcdef, %rax` yields exactly the
four tokens: INSTRUCTION `MOVABSQ` (base `MOV`, variant `ABSQ`), IMMEDIATE
`$0x1234567890ABCDEF` with value 1311768467294899695, COMMA, and REGISTER
`%RAX`. -/
theorem c3_movabsq_immediate_tokens :
    tokenize "MOVABSQ $0x1234567890abcdef, %rax" =
      .ok [.instr "MOVABSQ".data "MOV".data (some "ABSQ".data),
           .imm "$0x1234567890ABCDEF".data 1311768467294899695,
           .comma, .reg "%RAX".data] := by decide

/-- C4: tokenizing `MOV 0x123abc(%rax, %rbx, 8), %rcx` emits as the first
operand a MEMORY token with displacement 1194684, base `RAX`, index `RBX`,
scale 8, and canonical packed text `0x123ABC(%RAX,%RBX,8)`. -/
theorem c4_memory_operand_canonical :
    tokenize "MOV 0x123abc(%rax, %rbx, 8), %rcx" =
      .ok [.instr "MOV".data "MOV".data none,
           .mem "0x123ABC(%RAX,%RBX,8)".data (some 1194684) (some "RAX".data)
             (some "RBX".data) (some 8),
           .comma, .reg "%RCX".data] := by decide

/-- C7: a parenthesized memory operand with more than 3 comma-separated
fields fails with `InvalidAddressing`, and the message embeds the
uppercased parenthesized text in double quotes. -/
theorem c7_invalid_addressing_quoted :
    tokenize "MOV 0x123abc(%rax, %rbx, 8, %rcx), %rdx" =
      .error (.invalidAddressing "(%RAX, %RBX, 8, %RCX)".data) ∧
    LexErr.message (.invalidAddressing "(%RAX, %RBX, 8, %RCX)".data) =
      "Invalid addressing: \"(%RAX, %RBX, 8, %RCX)\"".data := by
  constructor
  · decide
  · decide

/-- C10: an empty parenthesized memory operand is rejected with
`InvalidBaseRegister` quoting the empty string, never emitted. -/
theorem c10_empty_paren_invalid_base :
    tokenize "MOV (), %rcx" = .error (.invalidBaseRegister []) ∧
    LexErr.message (.invalidBaseRegister []) = "Invalid base register: \"\"".data := by
  constructor
  · decide
  · decide

/-- In the state where an instruction was already lexed on the current
line, any alphabetic character fails the lexer with
`ExpectedNewlineBeforeSubsequentInstruction`. -/
theorem seen_alpha_error (n : Nat) (c : Char) (cs : List Char) (acc : List Tok)
    (halpha : isAlphaC c = true) :
    lexLoop (n + 1) true (c :: cs) acc =
      .error .expectedNewlineBeforeSubsequentInstruction := by
  obtain ⟨hws, hnl, hhash, hcomma, hpct, hdollar⟩ := alpha_start_facts halpha
  rw [lexLoop]
  simp [hws, hnl, hhash, hcomma, hpct, hdollar, halpha]

/-- C9: the MOV schema permits only operand count 2: for every operand
sequence whose length is not 2 (and any supported variant or none),
validation fails with `WrongOperandCount` before any operand-level
validator runs. -/
theorem c9_wrong_operand_count (tok : List Char) (var : Option (List Char)) (ops : List Tok)
    (hvar : var = none ∨ ∃ v, var = some v ∧ v ∈ SUPPORTED_VARIANTS)
    (hlen : ops.length ≠ 2) :
    validate movValidator (.instr tok "MOV".data var) ops = .error .wrongOperandCount := by
  rcases hvar with rfl | ⟨v, rfl, hv⟩
  · simp [validate, movValidator, validateCounts, hlen]
  · simp [validate, movValidator, validateCounts, hlen, hv]

/-- C9 witness -/
theorem c9_wrong_operand_count_witness :
    validate movValidator (.instr "MOV".data "MOV".data none) [] = .error .wrongOperandCount :=
  c9_wrong_operand_count "MOV".data none [] (Or.inl rfl) (by decide)

/-- C1 counterexample: for the `ABSQ` variant, two MEMORY operands are
rejected by the absq-operands validator (which runs first in the schema of
`mov.ts`), not with the memory-to-memory error the claim names. -/
theorem c1_counterexample_absq_masks_mem_to_mem :
    validate movValidator (.instr "MOVABSQ".data "MOV".data (some "ABSQ".data))
        [.mem "(%RAX)".data none (some "RAX".data) none none,
         .mem "(%RBX)".data none (some "RBX".data) none none] = .error .absqOperands ∧
    validate movValidator (.instr "MOVABSQ".data "MOV".data (some "ABSQ".data))
        [.mem "(%RAX)".data none (some "RAX".data) none none,
         .mem "(%RBX)".data none (some "RBX".data) none none] ≠ .error .memoryToMemory := by
  constructor
  · decide
  · decide

/-- C1 (amended): for every pair of MEMORY operands in a two-operand MOV
whose variant is none or a size suffix (`B`, `W`, `L`, `Q`), `validate`
rejects with the memory-to-memory error; for variant `ABSQ` the
absq-operands validator rejects first with its own error. -/
theorem c1_mov_memory_to_memory_rejected (tok : List Char) (var : Option (List Char))
    (m1 m2 : Tok)
    (hvar : var = none ∨ var = some "B".data ∨ var = some "W".data ∨
      var = some "L".data ∨ var = some "Q".data)
    (h1 : m1.isMemory = true) (h2 : m2.isMemory = true) :
    validate movValidator (.instr tok "MOV".data var) [m1, m2] = .error .memoryToMemory := by
  have hfilter : 2 ≤ ([m1, m2].filter Tok.isMemory).length := by
    simp [List.filter, h1, h2]
  rcases hvar with rfl | rfl | rfl | rfl | rfl <;>
    simp [validate, movValidator, validateCounts, runValidators, SUPPORTED_VARIANTS,
      absqOperandsValidator, movExtensionOperandsValidator, isExtensionVariant,
      noMemoryToMemoryValidator, hfilter]

/-- C1 witness -/
theorem c1_mov_memory_to_memory_rejected_witness :
    validate movValidator (.instr "MOV".data "MOV".data none)
      [.mem "0x1".data (some 1) none none none, .mem "0x2".data (some 2) none none none] =
      .error .memoryToMemory :=
  c1_mov_memory_to_memory_rejected "MOV".data none _ _ (Or.inl rfl) rfl rfl

/-- C5 counterexample: a bare integer literal at operand position followed
by `%` (not `(`) is not tokenized as a MEMORY displacement; the lexer fails
with `MissingOpeningParenthesis`, as the in-tree test suite asserts. -/
theorem c5_counterexample_bare_literal_before_register :
    tokenize "MOV 0x123abc%rax, %rbx" = .error .missingOpeningParenthesis := by decide

/-- C5 (amended): a bare integer literal at operand position followed by
whitespace, a comma, a newline, a comment, or end of input is tokenized as
a MEMORY token carrying only the displacement (never as an IMMEDIATE). -/
theorem c5_bare_literal_displacement (n : Nat) (seen : Bool) (acc : List Tok)
    (c : Char) (cs : List Char) (lit : NumLit) (rest : List Char)
    (hc : isDigitC c = true ∨ c = '-')
    (hscan : scanNumber (c :: cs) = some (lit, rest))
    (hrest : rest = [] ∨ ∃ d rest2, rest = d :: rest2 ∧
      (isWS d = true ∨ d = '\n' ∨ d = ',' ∨ d = '#')) :
    lexLoop (n + 1) seen (c :: cs) acc =
      lexLoop n seen rest
        (acc ++ [.mem lit.canon.render (some lit.canon.value) none none none]) := by
  have hfacts : isWS c = false ∧ c ≠ '\n' ∧ c ≠ '#' ∧ c ≠ ',' ∧ c ≠ '%' ∧ c ≠ '$' ∧
      isAlphaC c = false ∧ c ≠ '(' ∧ c ≠ ')' := by
    rcases hc with hd | rfl
    · exact digit_start_facts hd
    · exact ⟨by decide, by decide, by decide, by decide, by decide, by decide,
        by decide, by decide, by decide⟩
  obtain ⟨f1, f2, f3, f4, f5, f6, f7, f8, f9⟩ := hfacts
  have hdm : (isDigitC c || c = '-') = true := by
    rcases hc with hd | rfl
    · simp [hd]
    · simp
  rw [lexLoop]
  rcases hrest with rfl | ⟨d, rest2, rfl, hd⟩
  · simp [f1, f2, f3, f4, f5, f6, f7, f8, hdm, hscan]
  · have hdparen : d ≠ '(' := by
      rcases hd with h | rfl | rfl | rfl
      · simp only [isWS, Bool.or_eq_true, decide_eq_true_eq] at h
        rcases h with rfl | rfl <;> decide
      · decide
      · decide
      · decide
    rcases hd with h | rfl | rfl | rfl
    · simp [f1, f2, f3, f4, f5, f6, f7, f8, hdm, hscan, h, hdparen]
    · simp [f1, f2, f3, f4, f5, f6, f7, f8, hdm, hscan, hdparen]
    · simp [f1, f2, f3, f4, f5, f6, f7, f8, hdm, hscan, hdparen]
    · simp [f1, f2, f3, f4, f5, f6, f7, f8, hdm, hscan, hdparen]

/-- C5 witness: `0x123abc` followed by a comma becomes
`MEMORY { displacement }`, as in `MOV 0x123abc, %rax`. -/
theorem c5_bare_literal_displacement_witness :
    lexLoop 3 false ('0' :: "x123abc, %rax".data) [] =
      lexLoop 2 false ", %rax".data
        ([] ++ [Tok.mem (NumLit.canon ⟨false, true, 'x', "123abc".data⟩).render
            (some (NumLit.canon ⟨false, true, 'x', "123abc".data⟩).value) none none none]) ∧
    tokenize "MOV 0x123abc, %rax" =
      .ok [.instr "MOV".data "MOV".data none,
           .mem "0x123ABC".data (some 1194684) none none none,
           .comma, .reg "%RAX".data] :=
  ⟨c5_bare_literal_displacement 2 false [] '0' "x123abc, %rax".data
      ⟨false, true, 'x', "123abc".data⟩ ", %rax".data
      (Or.inl (by decide)) (by decide)
      (Or.inr ⟨',', " %rax".data, rfl, Or.inr (Or.inr (Or.inl rfl))⟩),
    by decide⟩


theorem regs_alnum : ∀ r ∈ SUPPORTED_REGISTERS, ∀ c ∈ r, isAlnumC c = true := by decide

theorem regs_up : ∀ r ∈ SUPPORTED_REGISTERS, upStr r = r := by decide

theorem regs_ne_nil : ∀ r ∈ SUPPORTED_REGISTERS, r ≠ [] := by decide

theorem instrs_facts : ∀ b ∈ SUPPORTED_INSTRUCTIONS,
    (∀ c ∈ b, isAlphaC c = true) ∧ upStr b = b ∧ b ≠ [] ∧
    splitMnemonic b = some (b, none) := by decide

theorem instr_variant_facts : ∀ b ∈ SUPPORTED_INSTRUCTIONS, ∀ v ∈ SUPPORTED_VARIANTS,
    (∀ c ∈ b ++ v, isAlphaC c = true) ∧ upStr (b ++ v) = b ++ v ∧
    splitMnemonic (b ++ v) = some (b, some v) := by decide

theorem sep_not_class {d : Char} (hd : d = ' ' ∨ d = '\n') :
    isAlnumC d = false ∧ isAlphaC d = false ∧ isHexC d = false ∧ isDigitC d = false ∧
    d ≠ 'x' ∧ d ≠ 'X' := by
  rcases hd with rfl | rfl <;> exact ⟨rfl, rfl, rfl, rfl, by decide, by decide⟩

theorem lex_step_comma (n : Nat) (seen : Bool) (acc : List Tok) (rest : List Char) :
    lexLoop (n + 1) seen (',' :: rest) acc = lexLoop n seen rest (acc ++ [.comma]) := by
  rw [lexLoop]
  simp [show isWS ',' = false from rfl]

theorem lex_step_reg (n : Nat) (seen : Bool) (acc : List Tok) (name rest : List Char)
    (hmem : name ∈ SUPPORTED_REGISTERS) (hr : ∀ d ∈ rest.head?, d = ' ' ∨ d = '\n') :
    lexLoop (n + 1) seen ('%' :: (name ++ rest)) acc =
      lexLoop n seen rest (acc ++ [.reg ('%' :: name)]) := by
  have halnum : ∀ c ∈ name, isAlnumC c = true := regs_alnum name hmem
  have hrest : ∀ d ∈ rest.head?, isAlnumC d = false :=
    fun d hd => (sep_not_class (hr d hd)).1
  rw [lexLoop]
  rw [takeWhile_app _ _ _ halnum hrest, dropWhile_app _ _ _ halnum hrest]
  rw [regs_up name hmem]
  simp [show isWS '%' = false from rfl, show isAlphaC '%' = false from rfl, hmem]

theorem lex_step_imm (n : Nat) (seen : Bool) (acc : List Tok) (l : NumLit) (rest : List Char)
    (hwf : LitWf l) (hr : ∀ d ∈ rest.head?, d = ' ' ∨ d = '\n') :
    lexLoop (n + 1) seen ('$' :: (l.render ++ rest)) acc =
      lexLoop n seen rest (acc ++ [.imm ('$' :: l.render) l.value]) := by
  have hscan : scanNumber (l.render ++ rest) = some (l, rest) := by
    refine scanNumber_render l rest hwf ?_
    intro d hd
    obtain ⟨-, -, h3, -, h5, h6⟩ := sep_not_class (hr d hd)
    exact ⟨h3, h5, h6⟩
  rw [lexLoop]
  rw [hscan]
  simp [show isWS '$' = false from rfl, show isAlphaC '$' = false from rfl, canon_fix hwf]

theorem lex_step_instr (n : Nat) (acc : List Tok)
    (base : List Char) (variant : Option (List Char)) (tok rest : List Char)
    (hb : base ∈ SUPPORTED_INSTRUCTIONS)
    (hv : (variant = none ∧ tok = base) ∨
      ∃ v, variant = some v ∧ v ∈ SUPPORTED_VARIANTS ∧ tok = base ++ v)
    (hr : ∀ d ∈ rest.head?, d = ' ' ∨ d = '\n') :
    lexLoop (n + 1) false (tok ++ rest) acc =
      lexLoop n true rest (acc ++ [.instr tok base variant]) := by
  have hfacts : (∀ c ∈ tok, isAlphaC c = true) ∧ upStr tok = tok ∧ tok ≠ [] ∧
      splitMnemonic tok = some (base, variant) := by
    rcases hv with ⟨rfl, rfl⟩ | ⟨v, rfl, hvm, rfl⟩
    · obtain ⟨a, b2, c2, d2⟩ := instrs_facts _ hb
      exact ⟨a, b2, c2, d2⟩
    · obtain ⟨a, b2, d2⟩ := instr_variant_facts _ hb v hvm
      refine ⟨a, b2, ?_, d2⟩
      obtain ⟨-, -, hbne, -⟩ := instrs_facts _ hb
      intro hcon
      exact hbne (List.append_eq_nil.mp hcon).1
  obtain ⟨htokalpha, htokup, htokne, hsplit⟩ := hfacts
  obtain ⟨c, cs, rfl⟩ : ∃ c cs, tok = c :: cs := by
    rcases tok with _ | ⟨c, cs⟩
    · exact absurd rfl htokne
    · exact ⟨c, cs, rfl⟩
  have hralpha : ∀ d ∈ rest.head?, isAlphaC d = false :=
    fun d hd => (sep_not_class (hr d hd)).2.1
  have hc : isAlphaC c = true := htokalpha c (by simp)
  obtain ⟨hws, hnl, hhash, hcomma, hpct, hdollar⟩ := alpha_start_facts hc
  have htk : (c :: (cs ++ rest)).takeWhile isAlphaC = c :: cs := by
    rw [← List.cons_append]
    exact takeWhile_app _ _ _ htokalpha hralpha
  have hdr : (c :: (cs ++ rest)).dropWhile isAlphaC = rest := by
    rw [← List.cons_append]
    exact dropWhile_app _ _ _ htokalpha hralpha
  rw [List.cons_append, lexLoop]
  rw [htk, hdr, htokup, hsplit]
  rcases hrest : rest with _ | ⟨d, rs⟩
  · simp [hws, hnl, hhash, hcomma, hpct, hdollar, hc]
  · have hd := hr d (by rw [hrest]; rfl)
    have hdok : (isWS d || d = '\n') = true := by
      rcases hd with rfl | rfl <;> rfl
    simp [hws, hnl, hhash, hcomma, hpct, hdollar, hc, hdok]

theorem isAlnumC_of_upHex {c : Char} (h : isUpHexC c = true) : isAlnumC c = true := by
  rcases isUpHexC_toNat h with ⟨a, b⟩ | ⟨a, b⟩
  · simp [isAlnumC, isDigitC_of_toNat a b]
  · have hup : isUpperC c = true := by
      simp only [isUpperC, Bool.and_eq_true, decide_eq_true_eq]
      exact ⟨show (65 : Nat) ≤ c.toNat from a, show c.toNat ≤ 90 by omega⟩
    simp [isAlnumC, isAlphaC, hup]

theorem lit_digit_chars {l : NumLit} (hwf : LitWf l) :
    ∀ d ∈ l.digits, isAlnumC d = true := by
  obtain ⟨h1, h2, h3⟩ := hwf
  intro d hd
  cases hx : l.hex with
  | true => exact isAlnumC_of_upHex ((h2 hx).2 d hd)
  | false => simp [isAlnumC, (h3 hx).2 d hd]

theorem lit_render_chars {l : NumLit} (hwf : LitWf l) :
    ∀ c ∈ l.render, isWS c = false ∧ c ≠ ',' ∧ notParenEnd c = true := by
  have hdigs := lit_digit_chars hwf
  obtain ⟨h1, h2, h3⟩ := hwf
  intro c hc
  simp only [NumLit.render, NumLit.renderMag, List.append_assoc, List.mem_append] at hc
  rcases hc with hc | hc | hc
  · by_cases hneg : l.neg = true
    · rw [if_pos hneg] at hc
      rw [List.mem_singleton.mp hc]
      exact ⟨rfl, by decide, rfl⟩
    · rw [if_neg hneg] at hc
      simp at hc
  · by_cases hhex : l.hex = true
    · rw [if_pos hhex] at hc
      rcases List.mem_cons.mp hc with rfl | hc2
      · exact ⟨rfl, by decide, rfl⟩
      · rw [List.mem_singleton.mp hc2]
        rcases (h2 hhex).1 with hx | hx <;> rw [hx]
        · exact ⟨rfl, by decide, rfl⟩
        · exact ⟨rfl, by decide, rfl⟩
    · rw [if_neg hhex] at hc
      simp at hc
  · obtain ⟨f1, f2, f3, -, -, -, -, -, f9⟩ := alnum_char_facts (hdigs c hc)
    exact ⟨f1, f3, f9⟩

theorem upStr_render_fix {l : NumLit} (hwf : LitWf l) (hX : l.hex = true → l.xChar = 'X') :
    upStr l.render = l.render := by
  obtain ⟨h1, h2, h3⟩ := hwf
  simp only [NumLit.render, NumLit.renderMag, upStr, List.map_append]
  have hd : List.map upChar l.digits = l.digits := by
    cases hx : l.hex with
    | true => exact upStr_upHex ((h2 hx).2)
    | false => exact upStr_digits ((h3 hx).2)
  rw [hd]
  cases hx : l.hex with
  | true =>
    rw [hX hx]
    cases hn : l.neg <;>
      simp [show upChar '-' = '-' from rfl, show upChar '0' = '0' from rfl,
        show upChar 'X' = 'X' from rfl]
  | false =>
    cases hn : l.neg <;> simp [show upChar '-' = '-' from rfl]

theorem reg_field_chars {bb : List Char} (h : bb ∈ SUPPORTED_REGISTERS) :
    (∀ c ∈ '%' :: bb, c ≠ ',') ∧ (∀ c ∈ '%' :: bb, isWS c = false) ∧
    (∀ c ∈ '%' :: bb, notParenEnd c = true) ∧ trimWS ('%' :: bb) = '%' :: bb ∧
    upStr ('%' :: bb) = '%' :: bb := by
  have halnum := regs_alnum bb h
  have hcomma : ∀ c ∈ '%' :: bb, c ≠ ',' := by
    intro c hc
    rcases List.mem_cons.mp hc with rfl | hc2
    · decide
    · exact (alnum_char_facts (halnum c hc2)).2.2.1
  have hws : ∀ c ∈ '%' :: bb, isWS c = false := by
    intro c hc
    rcases List.mem_cons.mp hc with rfl | hc2
    · rfl
    · exact (alnum_char_facts (halnum c hc2)).1
  have hnp : ∀ c ∈ '%' :: bb, notParenEnd c = true := by
    intro c hc
    rcases List.mem_cons.mp hc with rfl | hc2
    · rfl
    · exact (alnum_char_facts (halnum c hc2)).2.2.2.2.2.2.2.2
  refine ⟨hcomma, hws, hnp, trimWS_eq hws, ?_⟩
  simp only [upStr, List.map_cons]
  rw [show upChar '%' = '%' from rfl]
  have := regs_up bb h
  simp only [upStr] at this
  rw [this]

theorem baseField3_self {bb : List Char} (h : bb ∈ SUPPORTED_REGISTERS) :
    baseField3 ('%' :: bb) = .ok (some bb) := by
  unfold baseField3
  rw [if_neg (by simp)]
  rw [regField_self h]

theorem parseMemFields_replay (dl : Option NumLit)
    (b i : Option (List Char)) (sl : Option NumLit)
    (hb : ∀ x ∈ b, x ∈ SUPPORTED_REGISTERS) (hi : ∀ x ∈ i, x ∈ SUPPORTED_REGISTERS)
    (hsl : ∀ x ∈ sl, LitWf x ∧ (x.hex = true → x.xChar = 'X'))
    (hshape : MemShape b i sl) :
    parseMemFields dl (memFieldsText b i sl) =
      .ok (.mem (memToken dl b i sl) (dl.map NumLit.value) b i (sl.map NumLit.value)) := by
  rcases hshape with ⟨hbs, rfl, rfl⟩ | ⟨hbs, his, rfl⟩ | ⟨his, hss⟩
  · obtain ⟨bb, rfl⟩ := Option.isSome_iff_exists.mp hbs
    have hmem : bb ∈ SUPPORTED_REGISTERS := hb bb (by rw [Option.mem_def])
    obtain ⟨hcomma, hws, hnp, htrim, hup⟩ := reg_field_chars hmem
    have htext : memFieldsText (some bb) none none = '%' :: bb := by
      simp [memFieldsText]
    rw [htext]
    have hsplit : splitComma ('%' :: bb) = ['%' :: bb] := splitComma_no_comma hcomma
    simp only [parseMemFields, hsplit, List.map_cons, List.map_nil, htrim, hup,
      regField_self hmem]
    rfl
  · obtain ⟨bb, rfl⟩ := Option.isSome_iff_exists.mp hbs
    obtain ⟨ii, rfl⟩ := Option.isSome_iff_exists.mp his
    have hmemb : bb ∈ SUPPORTED_REGISTERS := hb bb (by rw [Option.mem_def])
    have hmemi : ii ∈ SUPPORTED_REGISTERS := hi ii (by rw [Option.mem_def])
    obtain ⟨hcommab, hwsb, hnpb, htrimb, hupb⟩ := reg_field_chars hmemb
    obtain ⟨hcommai, hwsi, hnpi, htrimi, hupi⟩ := reg_field_chars hmemi
    have htext : memFieldsText (some bb) (some ii) none =
        ('%' :: bb) ++ ',' :: ('%' :: ii) := by
      simp [memFieldsText]
    rw [htext]
    have hsplit : splitComma (('%' :: bb) ++ ',' :: ('%' :: ii)) =
        ['%' :: bb, '%' :: ii] := by
      rw [splitComma_append _ hcommab, splitComma_no_comma hcommai]
    simp only [parseMemFields, hsplit, List.map_cons, List.map_nil, htrimb, hupb,
      htrimi, hupi, regField_self hmemb, regField_self hmemi]
    rfl
  · obtain ⟨ii, rfl⟩ := Option.isSome_iff_exists.mp his
    obtain ⟨n, rfl⟩ := Option.isSome_iff_exists.mp hss
    have hmemi : ii ∈ SUPPORTED_REGISTERS := hi ii (by rw [Option.mem_def])
    obtain ⟨hwfn, hXn⟩ := hsl n (by rw [Option.mem_def])
    obtain ⟨hcommai, hwsi, hnpi, htrimi, hupi⟩ := reg_field_chars hmemi
    have hlitchars := lit_render_chars hwfn
    have hcomman : ∀ c ∈ n.render, c ≠ ',' := fun c hc => (hlitchars c hc).2.1
    have htrimn : trimWS n.render = n.render :=
      trimWS_eq (fun c hc => (hlitchars c hc).1)
    have hupn : upStr n.render = n.render := upStr_render_fix hwfn hXn
    have hscann : scanNumber n.render = some (n, []) := by
      have := scanNumber_render n [] hwfn (by intro d hd; simp at hd)
      simpa using this
    have hsplit2 : splitComma (('%' :: ii) ++ ',' :: n.render) =
        ['%' :: ii, n.render] := by
      rw [splitComma_append _ hcommai, splitComma_no_comma hcomman]
    cases b with
    | none =>
      have htext : memFieldsText none (some ii) (some n) =
          [] ++ ',' :: (('%' :: ii) ++ ',' :: n.render) := by
        simp [memFieldsText]
      rw [htext]
      have hsplit : splitComma ([] ++ ',' :: (('%' :: ii) ++ ',' :: n.render)) =
          [] :: ['%' :: ii, n.render] := by
        rw [splitComma_append _ (by intro c hc; simp at hc), hsplit2]
      simp only [parseMemFields, hsplit, List.map_cons, List.map_nil]
      rw [show trimWS ([] : List Char) = [] from rfl]
      rw [show upStr ([] : List Char) = [] from rfl]
      rw [show baseField3 [] = .ok none from rfl]
      simp only [htrimi, hupi, htrimn, hupn, regField_self hmemi, hscann, canon_fix hwfn]
      rfl
    | some bb =>
      have hmemb : bb ∈ SUPPORTED_REGISTERS := hb bb (by rw [Option.mem_def])
      obtain ⟨hcommab, hwsb, hnpb, htrimb, hupb⟩ := reg_field_chars hmemb
      have htext : memFieldsText (some bb) (some ii) (some n) =
          ('%' :: bb) ++ ',' :: (('%' :: ii) ++ ',' :: n.render) := by
        simp [memFieldsText]
      rw [htext]
      have hsplit : splitComma (('%' :: bb) ++ ',' :: (('%' :: ii) ++ ',' :: n.render)) =
          ('%' :: bb) :: ['%' :: ii, n.render] := by
        rw [splitComma_append _ hcommab, hsplit2]
      simp only [parseMemFields, hsplit, List.map_cons, List.map_nil, htrimb, hupb,
        htrimi, hupi, htrimn, hupn, baseField3_self hmemb, regField_self hmemi,
        hscann, canon_fix hwfn]
      rfl

theorem memFieldsText_chars (b i : Option (List Char)) (sl : Option NumLit)
    (hb : ∀ x ∈ b, x ∈ SUPPORTED_REGISTERS) (hi : ∀ x ∈ i, x ∈ SUPPORTED_REGISTERS)
    (hsl : ∀ x ∈ sl, LitWf x) :
    ∀ c ∈ memFieldsText b i sl, notParenEnd c = true := by
  intro c hc
  simp only [memFieldsText, List.append_assoc, List.mem_append] at hc
  rcases hc with hc | hc | hc
  · cases b with
    | none => simp at hc
    | some bb =>
      exact (reg_field_chars (hb bb (by rw [Option.mem_def]))).2.2.1 c hc
  · cases i with
    | none => simp at hc
    | some ii =>
      rcases List.mem_cons.mp hc with rfl | hc2
      · rfl
      · exact (reg_field_chars (hi ii (by rw [Option.mem_def]))).2.2.1 c hc2
  · cases sl with
    | none => simp at hc
    | some m =>
      rcases List.mem_cons.mp hc with rfl | hc2
      · rfl
      · exact (lit_render_chars (hsl m (by rw [Option.mem_def])) c hc2).2.2

theorem memParen_replay (dl : Option NumLit) (b i : Option (List Char)) (sl : Option NumLit)
    (rest : List Char)
    (hb : ∀ x ∈ b, x ∈ SUPPORTED_REGISTERS) (hi : ∀ x ∈ i, x ∈ SUPPORTED_REGISTERS)
    (hsl : ∀ x ∈ sl, LitWf x ∧ (x.hex = true → x.xChar = 'X'))
    (hshape : MemShape b i sl) :
    memParen dl (memFieldsText b i sl ++ ')' :: rest) =
      .ok (.mem (memToken dl b i sl) (dl.map NumLit.value) b i (sl.map NumLit.value), rest) := by
  have hinner := memFieldsText_chars b i sl hb hi (fun x hx => (hsl x hx).1)
  have hrp : ∀ x ∈ (')' :: rest).head?, notParenEnd x = false := by
    intro x hx
    rw [opt_mem_lemma hx]
    rfl
  have hdrop : (memFieldsText b i sl ++ ')' :: rest).dropWhile notParenEnd = ')' :: rest :=
    dropWhile_app _ _ _ hinner hrp
  have htake : (memFieldsText b i sl ++ ')' :: rest).takeWhile notParenEnd =
      memFieldsText b i sl :=
    takeWhile_app _ _ _ hinner hrp
  simp only [memParen, hdrop, htake]
  rw [if_pos trivial]
  rw [parseMemFields_replay dl b i sl hb hi hsl hshape]

theorem lit_head {l : NumLit} (hwf : LitWf l) :
    ∃ c0 cs0, l.render = c0 :: cs0 ∧ (isDigitC c0 = true ∨ c0 = '-') := by
  obtain ⟨h1, h2, h3⟩ := hwf
  cases hn : l.neg with
  | true => exact ⟨'-', l.renderMag, by simp [NumLit.render, hn], Or.inr rfl⟩
  | false =>
    cases hx : l.hex with
    | true =>
      exact ⟨'0', l.xChar :: l.digits,
        by simp [NumLit.render, NumLit.renderMag, hn, hx], Or.inl rfl⟩
    | false =>
      rcases hdg : l.digits with _ | ⟨d0, ds⟩
      · exact absurd hdg h1
      · exact ⟨d0, ds, by simp [NumLit.render, NumLit.renderMag, hn, hx, hdg],
          Or.inl ((h3 hx).2 d0 (by simp [hdg]))⟩

theorem scan_head_facts {c0 : Char} (hc0 : isDigitC c0 = true ∨ c0 = '-') :
    isWS c0 = false ∧ c0 ≠ '\n' ∧ c0 ≠ '#' ∧ c0 ≠ ',' ∧ c0 ≠ '%' ∧ c0 ≠ '$' ∧
    isAlphaC c0 = false ∧ c0 ≠ '(' ∧ c0 ≠ ')' := by
  rcases hc0 with hd | rfl
  · exact digit_start_facts hd
  · exact ⟨by decide, by decide, by decide, by decide, by decide, by decide,
      by decide, by decide, by decide⟩

theorem lex_step_mem (n : Nat) (seen : Bool) (acc : List Tok) (tok : List Char)
    (d : Option Int) (b i : Option (List Char)) (sc : Option Int) (rest : List Char)
    (hwf : TokWf (.mem tok d b i sc)) (hr : ∀ x ∈ rest.head?, x = ' ' ∨ x = '\n') :
    lexLoop (n + 1) seen (tok ++ rest) acc =
      lexLoop n seen rest (acc ++ [.mem tok d b i sc]) := by
  obtain ⟨dl, sl, hdl, hsl, rfl, rfl, hb, hi, hshape⟩ := hwf
  rcases hshape with ⟨l, rfl, rfl, rfl, rfl, rfl⟩ | ⟨hshape, rfl⟩
  · have hwfl : LitWf l := hdl l (by rw [Option.mem_def])
    have hscan : scanNumber (l.render ++ rest) = some (l, rest) := by
      refine scanNumber_render l rest hwfl ?_
      intro x hx
      obtain ⟨-, -, h3, -, h5, h6⟩ := sep_not_class (hr x hx)
      exact ⟨h3, h5, h6⟩
    obtain ⟨c0, cs0, hrender, hc0⟩ := lit_head hwfl
    have hscan2 : scanNumber (c0 :: (cs0 ++ rest)) = some (l, rest) := by
      rw [← List.cons_append, ← hrender]
      exact hscan
    obtain ⟨f1, f2, f3, f4, f5, f6, f7, f8, f9⟩ := scan_head_facts hc0
    have hdm : (isDigitC c0 || c0 = '-') = true := by
      rcases hc0 with hd | rfl
      · simp [hd]
      · simp
    rw [hrender, List.cons_append, lexLoop]
    rcases rest with _ | ⟨d2, rs⟩
    · simp only [List.append_nil] at hscan2
      simp [f1, f2, f3, f4, f5, f6, f7, f8, hdm, hscan2, canon_fix hwfl, hrender]
    · have hd2 := hr d2 rfl
      have hd2ok : (isWS d2 || d2 = '\n' || d2 = ',' || d2 = '#') = true := by
        rcases hd2 with rfl | rfl <;> rfl
      have hd2p : d2 ≠ '(' := by
        rcases hd2 with rfl | rfl <;> decide
      simp [f1, f2, f3, f4, f5, f6, f7, f8, hdm, hscan2, hd2ok, hd2p,
        canon_fix hwfl, hrender]
  · have hmp := memParen_replay dl b i sl rest hb hi hsl hshape
    cases dl with
    | none =>
      have htok : memToken none b i sl ++ rest =
          '(' :: (memFieldsText b i sl ++ ')' :: rest) := by
        simp [memToken]
      rw [htok, lexLoop]
      simp [show isWS '(' = false from rfl, show isAlphaC '(' = false from rfl, hmp]
    | some l =>
      have hwfl : LitWf l := hdl l (by rw [Option.mem_def])
      obtain ⟨c0, cs0, hrender, hc0⟩ := lit_head hwfl
      have htok : memToken (some l) b i sl ++ rest =
          c0 :: (cs0 ++ ('(' :: (memFieldsText b i sl ++ ')' :: rest))) := by
        simp only [memToken]
        rw [hrender]
        simp
      have hscan : scanNumber (l.render ++ ('(' :: (memFieldsText b i sl ++ ')' :: rest))) =
          some (l, '(' :: (memFieldsText b i sl ++ ')' :: rest)) := by
        refine scanNumber_render l _ hwfl ?_
        intro x hx
        rw [opt_mem_lemma hx]
        exact ⟨rfl, by decide, by decide⟩
      have hscan2 : scanNumber (c0 :: (cs0 ++ ('(' :: (memFieldsText b i sl ++ ')' :: rest)))) =
          some (l, '(' :: (memFieldsText b i sl ++ ')' :: rest)) := by
        rw [← List.cons_append, ← hrender]
        exact hscan
      obtain ⟨f1, f2, f3, f4, f5, f6, f7, f8, f9⟩ := scan_head_facts hc0
      have hdm : (isDigitC c0 || c0 = '-') = true := by
        rcases hc0 with hd | rfl
        · simp [hd]
        · simp
      rw [htok, lexLoop]
      simp [f1, f2, f3, f4, f5, f6, f7, f8, hdm, hscan2, canon_fix hwfl, hmp, hrender]

theorem lex_step_sp (n : Nat) (seen : Bool) (acc : List Tok) (X : List Char) :
    lexLoop (n + 1) seen (' ' :: X) acc = lexLoop n seen X acc := by
  rw [lexLoop]
  simp [show isWS ' ' = true from rfl]

theorem lex_step_nl (n : Nat) (seen : Bool) (acc : List Tok) (X : List Char) :
    lexLoop (n + 1) seen ('\n' :: X) acc = lexLoop n false X acc := by
  rw [lexLoop]
  simp [show isWS '\n' = false from rfl]

theorem render_head (ts : List Tok) : ∀ d ∈ (render ts).head?, d = ' ' ∨ d = '\n' := by
  intro d hd
  cases ts with
  | nil => simp [render] at hd
  | cons t ts2 =>
    rw [show render (t :: ts2) = sepChar t :: (tokText t ++ render ts2) from rfl] at hd
    rw [opt_mem_lemma hd]
    cases t with
    | instr tok base variant => exact Or.inr rfl
    | reg tok => exact Or.inl rfl
    | imm tok v => exact Or.inl rfl
    | mem tok d2 b i sc => exact Or.inl rfl
    | comma => exact Or.inl rfl

theorem tokText_ne_nil {t : Tok} (hwf : TokWf t) : tokText t ≠ [] := by
  cases t with
  | instr tok base variant =>
    obtain ⟨hb, hv⟩ := hwf
    obtain ⟨-, -, hbne, -⟩ := instrs_facts base hb
    rcases hv with ⟨-, rfl⟩ | ⟨v, -, -, rfl⟩
    · exact hbne
    · intro hcon
      exact hbne (List.append_eq_nil.mp hcon).1
  | reg tok =>
    obtain ⟨name, -, rfl⟩ := hwf
    simp [tokText]
  | imm tok v =>
    obtain ⟨l, -, rfl, -⟩ := hwf
    simp [tokText]
  | mem tok d b i sc =>
    obtain ⟨dl, sl, hdl, -, -, -, -, -, hshape⟩ := hwf
    rcases hshape with ⟨l, rfl, -, -, -, rfl⟩ | ⟨-, rfl⟩
    · obtain ⟨c0, cs0, hrender, -⟩ := lit_head (hdl l (by rw [Option.mem_def]))
      simp [tokText, hrender]
    · simp [tokText, memToken]
  | comma => simp [tokText]

theorem render_length (ts : List Tok) (hwf : ∀ t ∈ ts, TokWf t) :
    2 * ts.length ≤ (render ts).length := by
  induction ts with
  | nil => simp [render]
  | cons t ts2 ih =>
    have ht := tokText_ne_nil (hwf t (by simp))
    have hpos : 1 ≤ (tokText t).length := List.length_pos.mpr ht
    have := ih (fun x hx => hwf x (by simp [hx]))
    rw [show render (t :: ts2) = sepChar t :: (tokText t ++ render ts2) from rfl]
    simp only [List.length_cons, List.length_append]
    omega

theorem render_replay : ∀ (ts : List Tok), (∀ t ∈ ts, TokWf t) →
    ∀ (m : Nat) (seen : Bool) (acc : List Tok), 2 * ts.length + 1 ≤ m →
      lexLoop m seen (render ts) acc = .ok (acc ++ ts) := by
  intro ts
  induction ts with
  | nil =>
    intro _ m seen acc hm
    obtain ⟨m2, rfl⟩ : ∃ m2, m = m2 + 1 := ⟨m - 1, by omega⟩
    simp [render, lexLoop]
  | cons t ts ih =>
    intro hwf m seen acc hm
    simp only [List.length_cons] at hm
    obtain ⟨m2, rfl⟩ : ∃ m2, m = m2 + 2 := ⟨m - 2, by omega⟩
    have hwft : TokWf t := hwf t (by simp)
    have hwfts : ∀ x ∈ ts, TokWf x := fun x hx => hwf x (by simp [hx])
    have hrhead := render_head ts
    have hm2 : 2 * ts.length + 1 ≤ m2 := by omega
    have hacc : (acc ++ [t]) ++ ts = acc ++ (t :: ts) := by simp
    rw [show render (t :: ts) = sepChar t :: (tokText t ++ render ts) from rfl]
    cases t with
    | comma =>
      rw [show sepChar Tok.comma = ' ' from rfl, lex_step_sp]
      rw [show tokText Tok.comma ++ render ts = ',' :: render ts from rfl]
      rw [lex_step_comma]
      rw [ih hwfts m2 seen (acc ++ [Tok.comma]) hm2, hacc]
    | reg tok =>
      obtain ⟨name, hmem, rfl⟩ := hwft
      rw [show sepChar (Tok.reg ('%' :: name)) = ' ' from rfl, lex_step_sp]
      rw [show tokText (Tok.reg ('%' :: name)) ++ render ts =
        '%' :: (name ++ render ts) from by simp [tokText]]
      rw [lex_step_reg m2 seen acc name (render ts) hmem hrhead]
      rw [ih hwfts m2 seen (acc ++ [Tok.reg ('%' :: name)]) hm2, hacc]
    | imm tok v =>
      obtain ⟨l, hwfl, rfl, rfl⟩ := hwft
      rw [show sepChar (Tok.imm ('$' :: l.render) l.value) = ' ' from rfl, lex_step_sp]
      rw [show tokText (Tok.imm ('$' :: l.render) l.value) ++ render ts =
        '$' :: (l.render ++ render ts) from by simp [tokText]]
      rw [lex_step_imm m2 seen acc l (render ts) hwfl hrhead]
      rw [ih hwfts m2 seen (acc ++ [Tok.imm ('$' :: l.render) l.value]) hm2, hacc]
    | mem tok d b i sc =>
      rw [show sepChar (Tok.mem tok d b i sc) = ' ' from rfl, lex_step_sp]
      rw [show tokText (Tok.mem tok d b i sc) ++ render ts = tok ++ render ts from rfl]
      rw [lex_step_mem m2 seen acc tok d b i sc (render ts) hwft hrhead]
      rw [ih hwfts m2 seen (acc ++ [Tok.mem tok d b i sc]) hm2, hacc]
    | instr tok base variant =>
      obtain ⟨hb, hv⟩ := hwft
      rw [show sepChar (Tok.instr tok base variant) = '\n' from rfl, lex_step_nl]
      rw [show tokText (Tok.instr tok base variant) ++ render ts =
        tok ++ render ts from rfl]
      rw [lex_step_instr m2 acc base variant tok (render ts) hb hv hrhead]
      rw [ih hwfts m2 true (acc ++ [Tok.instr tok base variant]) hm2, hacc]

/-- C8: lexing is idempotent under canonicalization: for every source on
which `tokenize` succeeds, re-lexing the source reconstructed from the
canonical token texts (`render`) yields the identical token sequence. -/
theorem c8_relex_canonical_idempotent (s : String) (ts : List Tok)
    (h : tokenize s = .ok ts) : tokenizeL (render ts) = .ok ts := by
  unfold tokenize tokenizeL at h
  have hwf : ∀ t ∈ ts, TokWf t := lexLoop_wf _ _ _ _ _ h (by intro t ht; simp at ht)
  have hlen : 2 * ts.length ≤ (render ts).length := render_length ts hwf
  unfold tokenizeL
  rw [render_replay ts hwf ((render ts).length + 1) false [] (by omega)]
  simp

/-- C8 witness -/
theorem c8_relex_canonical_idempotent_witness :
    tokenizeL (render
      [Tok.instr "MOV".data "MOV".data none, Tok.reg "%RAX".data, Tok.comma,
       Tok.reg "%RBX".data]) =
      .ok [Tok.instr "MOV".data "MOV".data none, Tok.reg "%RAX".data, Tok.comma,
       Tok.reg "%RBX".data] :=
  c8_relex_canonical_idempotent "MOV %rax, %rbx" _ (by decide)


theorem render_replay_cont : ∀ (ts : List Tok), (∀ t ∈ ts, TokWf t) →
    ∀ (extra : List Char), (∀ d ∈ extra.head?, d = ' ' ∨ d = '\n') →
    ∀ (m : Nat) (seen : Bool) (acc : List Tok),
      lexLoop (2 * ts.length + m) seen (render ts ++ extra) acc =
        lexLoop m (seenAfter seen ts) extra (acc ++ ts) := by
  intro ts
  induction ts with
  | nil =>
    intro _ extra hextra m seen acc
    simp [render, seenAfter]
  | cons t ts ih =>
    intro hwf extra hextra m seen acc
    have hwft : TokWf t := hwf t (by simp)
    have hwfts : ∀ x ∈ ts, TokWf x := fun x hx => hwf x (by simp [hx])
    have hrhead : ∀ d ∈ (render ts ++ extra).head?, d = ' ' ∨ d = '\n' := by
      cases hre : render ts with
      | nil => simpa using hextra
      | cons a as =>
        intro d hd
        simp only [List.cons_append, List.head?_cons] at hd
        rw [opt_mem_lemma hd]
        have := render_head ts
        rw [hre] at this
        exact this a rfl
    have hacc : (acc ++ [t]) ++ ts = acc ++ (t :: ts) := by simp
    have hfuel : 2 * (t :: ts).length + m = (2 * ts.length + m) + 1 + 1 := by
      simp only [List.length_cons]
      ring
    rw [hfuel]
    rw [show render (t :: ts) ++ extra =
      sepChar t :: (tokText t ++ (render ts ++ extra)) from by simp [render]]
    cases t with
    | comma =>
      rw [show sepChar Tok.comma = ' ' from rfl, lex_step_sp]
      rw [show tokText Tok.comma ++ (render ts ++ extra) =
        ',' :: (render ts ++ extra) from rfl]
      rw [lex_step_comma]
      rw [ih hwfts extra hextra m seen (acc ++ [Tok.comma]), hacc]
      rfl
    | reg tok =>
      obtain ⟨name, hmem, rfl⟩ := hwft
      rw [show sepChar (Tok.reg ('%' :: name)) = ' ' from rfl, lex_step_sp]
      rw [show tokText (Tok.reg ('%' :: name)) ++ (render ts ++ extra) =
        '%' :: (name ++ (render ts ++ extra)) from by simp [tokText]]
      rw [lex_step_reg _ seen acc name (render ts ++ extra) hmem hrhead]
      rw [ih hwfts extra hextra m seen (acc ++ [Tok.reg ('%' :: name)]), hacc]
      rfl
    | imm tok v =>
      obtain ⟨l, hwfl, rfl, rfl⟩ := hwft
      rw [show sepChar (Tok.imm ('$' :: l.render) l.value) = ' ' from rfl, lex_step_sp]
      rw [show tokText (Tok.imm ('$' :: l.render) l.value) ++ (render ts ++ extra) =
        '$' :: (l.render ++ (render ts ++ extra)) from by simp [tokText]]
      rw [lex_step_imm _ seen acc l (render ts ++ extra) hwfl hrhead]
      rw [ih hwfts extra hextra m seen (acc ++ [Tok.imm ('$' :: l.render) l.value]), hacc]
      rfl
    | mem tok d b i sc =>
      rw [show sepChar (Tok.mem tok d b i sc) = ' ' from rfl, lex_step_sp]
      rw [show tokText (Tok.mem tok d b i sc) ++ (render ts ++ extra) =
        tok ++ (render ts ++ extra) from rfl]
      rw [lex_step_mem _ seen acc tok d b i sc (render ts ++ extra) hwft hrhead]
      rw [ih hwfts extra hextra m seen (acc ++ [Tok.mem tok d b i sc]), hacc]
      rfl
    | instr tok base variant =>
      obtain ⟨hb, hv⟩ := hwft
      rw [show sepChar (Tok.instr tok base variant) = '\n' from rfl, lex_step_nl]
      rw [show tokText (Tok.instr tok base variant) ++ (render ts ++ extra) =
        tok ++ (render ts ++ extra) from rfl]
      rw [lex_step_instr _ acc base variant tok (render ts ++ extra) hb hv hrhead]
      rw [ih hwfts extra hextra m true (acc ++ [Tok.instr tok base variant]), hacc]
      rfl

/-- C6: for every input in which a second instruction statement begins on a
line that already holds an instruction statement, with no newline between
them, `tokenize` fails with `ExpectedNewlineBeforeSubsequentInstruction`:
after any canonically rendered token sequence whose current line contains
an instruction (`seenAfter false ts = true`), a following alphabetic
mnemonic character separated only by a space triggers the error. -/
theorem c6_expected_newline (ts : List Tok) (hwf : ∀ t ∈ ts, TokWf t)
    (hseen : seenAfter false ts = true) (c : Char) (cs : List Char)
    (halpha : isAlphaC c = true) :
    tokenizeL (render ts ++ ' ' :: c :: cs) =
      .error .expectedNewlineBeforeSubsequentInstruction := by
  unfold tokenizeL
  have hlen : 2 * ts.length ≤ (render ts).length := render_length ts hwf
  have hfuel : (render ts ++ ' ' :: c :: cs).length + 1 =
      2 * ts.length + ((render ts ++ ' ' :: c :: cs).length + 1 - 2 * ts.length) := by
    simp only [List.length_append, List.length_cons]
    omega
  rw [hfuel]
  rw [render_replay_cont ts hwf (' ' :: c :: cs) (by intro d hd; exact Or.inl (opt_mem_lemma hd))]
  have hm : (render ts ++ ' ' :: c :: cs).length + 1 - 2 * ts.length =
      ((render ts ++ ' ' :: c :: cs).length - 1 - 2 * ts.length) + 1 + 1 := by
    simp only [List.length_append, List.length_cons]
    omega
  rw [hm, lex_step_sp, hseen]
  exact seen_alpha_error _ c cs ([] ++ ts) halpha

/-- C6 witness: the spec's concrete scenario `MOV %rax, %rbx ADD %rax, %rbx`
(in raw and in canonically rendered form). -/
theorem c6_expected_newline_witness :
    tokenizeL (render [Tok.instr "MOV".data "MOV".data none, Tok.reg "%RAX".data,
        Tok.comma, Tok.reg "%RBX".data] ++ ' ' :: 'A' :: "DD %rax, %rbx".data) =
      .error .expectedNewlineBeforeSubsequentInstruction ∧
    tokenize "MOV %rax, %rbx ADD %rax, %rbx" =
      .error .expectedNewlineBeforeSubsequentInstruction :=
  ⟨c6_expected_newline
      [Tok.instr "MOV".data "MOV".data none, Tok.reg "%RAX".data,
       Tok.comma, Tok.reg "%RBX".data]
      (by
        intro t ht
        fin_cases ht
        · exact ⟨by decide, Or.inl ⟨rfl, rfl⟩⟩
        · exact ⟨"RAX".data, by decide, rfl⟩
        · exact trivial
        · exact ⟨"RBX".data, by decide, rfl⟩)
      (by decide) 'A' "DD %rax, %rbx".data (by decide),
    by decide⟩

end MovViz
